import Mathlib

/-!
# Verification of the `runeset` core of cions/genpass

Shallow embedding of `internal/runeset` (interval-set builder, compactor,
frozen picker) and its CSET parser, with theorems checking the
natural-language specification against the code.

Code points (Go `rune`, an `int32`) are modelled as `Int`; the sizes held in
`int64` fields are modelled as `Int` as well (all arithmetic performed by the
code on in-range inputs stays far below either width, so no wrap-around is
reachable and none is modelled).  Go slices of intervals are modelled as
`List Range`; the one place where slice aliasing is observable
(`Picker` sharing the builder's backing array while `MergeAdjacents`
rewrites it in place) is modelled explicitly by keeping the whole backing
array of the merge loop, not only the truncated builder view.
-/

namespace Runeset

/-- `type Range struct { lo, hi rune }` -/
structure Range where
  lo : Int
  hi : Int
deriving DecidableEq, Repr

/-- Membership of a code point in the set described by an interval list:
`r` is a member iff some interval contains it inclusively. -/
def memberOf (l : List Range) (r : Int) : Prop :=
  ∃ a ∈ l, a.lo ≤ r ∧ r ≤ a.hi

instance (l : List Range) (r : Int) : Decidable (memberOf l r) := by
  unfold memberOf; infer_instance

/-- The documented invariant of a `RuneSet`: every interval is nonempty
(`lo ≤ hi`), and the sequence is strictly sorted with pairwise disjoint
intervals (each interval ends strictly before the next begins). -/
def Ordered (l : List Range) : Prop :=
  (∀ a ∈ l, a.lo ≤ a.hi) ∧ l.Pairwise (fun a b => a.hi < b.lo)

instance (l : List Range) : Decidable (Ordered l) := by
  unfold Ordered; infer_instance

/-- `func compare(a Range, b rune) int` -/
def compare (a : Range) (b : Int) : Int :=
  if a.hi < b then -1
  else if a.lo > b then 1
  else 0

/-- Denotation of `slices.BinarySearchFunc(set.ranges, r, compare)` on a
slice sorted for `compare`: the smallest index `i` with
`compare(ranges[i], r) ≥ 0` (equivalently the length of the longest prefix
with `compare < 0`), and whether `compare` is `0` there. -/
def binarySearchFunc (l : List Range) (r : Int) : Nat × Bool :=
  match l with
  | [] => (0, false)
  | a :: rest =>
    if compare a r < 0 then
      let p := binarySearchFunc rest r
      (p.1 + 1, p.2)
    else
      (0, decide (compare a r = 0))

/-- `func (set *RuneSet) Add(r rune)`:
binary-search for `r`; if not found, `slices.Insert` the singleton `[r,r]`
at the returned position. -/
def add (l : List Range) (r : Int) : List Range :=
  if (binarySearchFunc l r).2 then l
  else l.take (binarySearchFunc l r).1 ++ ⟨r, r⟩ :: l.drop (binarySearchFunc l r).1

/-- The body of `func (set *RuneSet) AddRange(lo, hi rune)` after its
`lo > hi` panic guard: two binary searches, bound absorption, and
`slices.Replace(set.ranges, i, j, Range{lo, hi})`. -/
def addRangeF (l : List Range) (lo hi : Int) : List Range :=
  l.take (binarySearchFunc l lo).1 ++
    ⟨if (binarySearchFunc l lo).2 then (l.getD (binarySearchFunc l lo).1 ⟨0, 0⟩).lo else lo,
     if (binarySearchFunc l hi).2 then (l.getD (binarySearchFunc l hi).1 ⟨0, 0⟩).hi else hi⟩ ::
    l.drop (if (binarySearchFunc l hi).2 then (binarySearchFunc l hi).1 + 1
            else (binarySearchFunc l hi).1)

/-- `func (set *RuneSet) AddRange(lo, hi rune)` including the panic guard:
`none` models the `panic("runeset: lo must be smaller than or equals to hi")`. -/
def addRange (l : List Range) (lo hi : Int) : Option (List Range) :=
  if lo > hi then none else some (addRangeF l lo hi)

/-- One block of a `unicode.RangeTable` (`unicode.Range16` / `unicode.Range32`):
`{Lo, Hi, Stride}`, unsigned in Go, modelled as `Nat`. -/
structure Block where
  lo : Nat
  hi : Nat
  stride : Nat
deriving DecidableEq, Repr

/-- `*unicode.RangeTable`, reduced to the fields the code reads
(`LatinOffset` is never consulted). -/
structure RangeTable where
  r16 : List Block
  r32 : List Block
deriving DecidableEq, Repr

/-- The inner loop `for x := r.Lo; x <= r.Hi; x += r.Stride { set.Add(rune(x)) }`
of `AddRangeTable` for a block with stride `> 1`.  A zero stride makes the Go
loop diverge; here it returns immediately, so the model is faithful only for
`stride ≥ 1` (guaranteed by `WFTable`). -/
def addStrided (l : List Range) (x hi stride : Nat) : List Range :=
  if stride = 0 then l
  else if x ≤ hi then addStrided (add l (x : Int)) (x + stride) hi stride
  else l
termination_by hi + 1 - x
decreasing_by omega

/-- Import of one `{Lo, Hi, Stride}` block by `AddRangeTable`: stride 1 goes
through `AddRange` (whose panic is `none`), larger strides through the `Add`
loop; stride 0 (divergence in Go) is also modelled as a fault. -/
def addBlock (l : List Range) (b : Block) : Option (List Range) :=
  if b.stride = 1 then addRange l (b.lo : Int) (b.hi : Int)
  else if b.stride = 0 then none
  else some (addStrided l b.lo b.hi b.stride)

/-- `func (set *RuneSet) AddRangeTable(table *unicode.RangeTable)`:
all `R16` blocks in order, then all `R32` blocks in order. -/
def addRangeTable (l : List Range) (t : RangeTable) : Option (List Range) :=
  (t.r16.foldlM addBlock l).bind (fun l16 => t.r32.foldlM addBlock l16)

/-- Well-formedness of a Unicode range table, satisfied by every table of the
Go `unicode` database: nonempty blocks, nonzero stride, and (for blocks with
stride `> 1`) `hi + stride` below the unsigned width, so that the Go loop
counter `x` never wraps around and the `Nat` model of the loop is faithful. -/
def WFTable (t : RangeTable) : Prop :=
  (∀ b ∈ t.r16, b.lo ≤ b.hi ∧ 1 ≤ b.stride ∧ (b.stride = 1 ∨ b.hi + b.stride < 2 ^ 16)) ∧
  (∀ b ∈ t.r32, b.lo ≤ b.hi ∧ 1 ≤ b.stride ∧ (b.stride = 1 ∨ b.hi + b.stride < 2 ^ 32))

instance (t : RangeTable) : Decidable (WFTable t) := by
  unfold WFTable; infer_instance

/-- The inner `for j < len(set.ranges) && cur.hi+1 == set.ranges[j].lo` loop of
`MergeAdjacents`: starting from `cur` at read position `j`, absorb the run of
numerically touching successors; returns the widened interval and the next
read position. -/
def scanRun (arr : List Range) (cur : Range) (j : Nat) : Range × Nat :=
  if h : j < arr.length then
    if cur.hi + 1 = (arr.get ⟨j, h⟩).lo then
      scanRun arr ⟨cur.lo, (arr.get ⟨j, h⟩).hi⟩ (j + 1)
    else (cur, j)
  else (cur, j)
termination_by arr.length - j
decreasing_by omega

theorem scanRun_ge (arr : List Range) (cur : Range) (j : Nat) :
    j ≤ (scanRun arr cur j).2 := by
  induction cur, j using scanRun.induct arr with
  | case1 cur j h hif ih =>
    rw [scanRun, dif_pos h, if_pos hif]
    exact Nat.le_of_succ_le ih
  | case2 cur j h hif =>
    rw [scanRun, dif_pos h, if_neg hif]
  | case3 cur j h =>
    rw [scanRun, dif_neg h]

/-- The outer loop of `func (set *RuneSet) MergeAdjacents()`, operating in
place on the backing array: reads `cur` at `j`, lets `scanRun` absorb the
touching run, writes the result at `i`, and continues; returns the final
backing array together with the final write index `i` (the new length). -/
def mergeOuter (arr : List Range) (i j : Nat) : List Range × Nat :=
  if h : j < arr.length then
    mergeOuter (arr.set i (scanRun arr (arr.get ⟨j, h⟩) (j + 1)).1) (i + 1)
      (scanRun arr (arr.get ⟨j, h⟩) (j + 1)).2
  else (arr, i)
termination_by arr.length - j
decreasing_by
  have hs : j + 1 ≤ (scanRun arr (arr.get ⟨j, h⟩) (j + 1)).2 :=
    scanRun_ge arr (arr.get ⟨j, h⟩) (j + 1)
  simp only [List.length_set]
  omega

/-- `MergeAdjacents` as observed through the builder:
`set.ranges = set.ranges[:i]` truncates the rewritten array to the final
write index. -/
def mergeAdjacents (l : List Range) : List Range :=
  ((mergeOuter l 0 0).1).take (mergeOuter l 0 0).2

/-- The full backing array after `MergeAdjacents` ran in place — what a
slice created before the call (such as a `Picker`'s) still sees. -/
def mergeBacking (l : List Range) : List Range := (mergeOuter l 0 0).1

/-- Reference recursion for the merge loop (proved equivalent to
`mergeAdjacents` below): merge the head into its touching successor until
the successor no longer touches. -/
def mergeRuns : List Range → List Range
  | [] => []
  | [a] => [a]
  | a :: b :: rest =>
    if a.hi + 1 = b.lo then mergeRuns (⟨a.lo, b.hi⟩ :: rest)
    else a :: mergeRuns (b :: rest)
termination_by l => l.length

/-- List-level counterpart of `scanRun`: absorb the touching prefix of a
list into `cur`, returning the widened interval and how many elements were
consumed. -/
def absorb (cur : Range) : List Range → Range × Nat
  | [] => (cur, 0)
  | b :: rest =>
    if cur.hi + 1 = b.lo then
      ((absorb ⟨cur.lo, b.hi⟩ rest).1, (absorb ⟨cur.lo, b.hi⟩ rest).2 + 1)
    else (cur, 0)

/-- Structurally recursive form of the merge (used to evaluate the
well-founded recursions on concrete inputs): merge `cur` with the touching
run at the front of the list, then continue. -/
def mergeInto : Range → List Range → List Range
  | cur, [] => [cur]
  | cur, b :: rest =>
    if cur.hi + 1 = b.lo then mergeInto ⟨cur.lo, b.hi⟩ rest
    else cur :: mergeInto b rest

/-- `type Picker struct { ranges []Range; cumSizes []int64; size int64 }` -/
structure Picker where
  ranges : List Range
  cumSizes : List Int
  size : Int
deriving DecidableEq, Repr

/-- The running sum accumulated by the construction loop of
`func (set *RuneSet) Picker()`. -/
def totalSize (l : List Range) : Int :=
  l.foldl (fun s a => s + (a.hi - a.lo + 1)) 0

/-- The `cumsizes` array filled by the same loop, with running sum `s`. -/
def cumSizesFrom (s : Int) : List Range → List Int
  | [] => []
  | a :: rest => (s + (a.hi - a.lo + 1)) :: cumSizesFrom (s + (a.hi - a.lo + 1)) rest

/-- `func (set *RuneSet) Picker() *Picker`.  The `ranges` field holds the
builder's slice itself (`&Picker{set.ranges, cumsizes, size}` — no copy);
`cumSizes` and `size` are freshly computed. -/
def mkPicker (l : List Range) : Picker :=
  ⟨l, cumSizesFrom 0 l, totalSize l⟩

/-- Denotation of `slices.BinarySearch(p.cumSizes, i)` on a sorted slice:
smallest index whose element is `≥ i`, and whether it equals `i`. -/
def binarySearchInt (l : List Int) (t : Int) : Nat × Bool :=
  match l with
  | [] => (0, false)
  | a :: rest =>
    if a < t then
      let p := binarySearchInt rest t
      (p.1 + 1, p.2)
    else
      (0, decide (a = t))

/-- The local `ridx` of `func (p *Picker) Get`: the binary-search position,
bumped past an exact hit (`if found { ridx++ }`). -/
def getRidx (cum : List Int) (i : Int) : Nat :=
  if (binarySearchInt cum i).2 then (binarySearchInt cum i).1 + 1
  else (binarySearchInt cum i).1

/-- The local `offset` of `func (p *Picker) Get`:
`i`, minus the cumulative count before the owning interval when there is
one. -/
def getOffset (cum : List Int) (i : Int) : Int :=
  if 0 < getRidx cum i then i - cum.getD (getRidx cum i - 1) 0 else i

/-- `func (p *Picker) Get(i int64) rune`; `none` models the
`panic("runeset: out of bounds")`.  The interior indexings
`p.cumSizes[ridx-1]` and `p.ranges[ridx]` are modelled with `getD`; for every
picker built by `mkPicker` from an `Ordered` list and an in-range `i` they
are in bounds (proved below), so the defaults are never reached there. -/
def pickerGet (p : Picker) (i : Int) : Option Int :=
  if i < 0 ∨ p.size ≤ i then none
  else some ((p.ranges.getD (getRidx p.cumSizes i) ⟨0, 0⟩).lo +
    getOffset p.cumSizes i)

/-- `func (p *Picker) Random() rune`.  `crypto/rand.Int(rand.Reader, n)`
panics when `n ≤ 0` (modelled as `none`); otherwise it yields a uniformly
random integer in `[0, n)`, modelled by the explicit `draw` argument (such a
draw always satisfies `IsInt64`, so that guard cannot fire). -/
def randomWith (p : Picker) (draw : Int) : Option Int :=
  if p.size ≤ 0 then none else pickerGet p draw

/-- Reference recursion for `Get` (proved equal to `pickerGet` below):
the `i`-th member of the set in ascending order, walking the interval list
front to back. -/
def getMem : List Range → Int → Int
  | [], _ => 0
  | a :: rest, i =>
    if i < a.hi - a.lo + 1 then a.lo + i else getMem rest (i - (a.hi - a.lo + 1))

/-- The picker obtained by `set.Picker()` as seen after a subsequent
`set.MergeAdjacents()`: `size` and `cumSizes` were computed at construction
time and are unaffected, but `ranges` is a length-`l.length` slice over the
shared backing array, which the merge loop has rewritten in place. -/
def pickerAfterMerge (l : List Range) : Picker :=
  { mkPicker l with ranges := (mergeBacking l).take l.length }

/-! ## The CSET parser (`internal/runeset/parser.go`)

Go strings are byte strings; the parser indexes and slices them bytewise and
decodes UTF-8 explicitly, so the input is modelled as `List Nat` with each
element a byte value `< 256`.  The errors built with `fmt.Errorf` are
modelled as constructors carrying the byte substring interpolated into the
message. -/

/-- The errors produced by `decodeCharClass`/`decodeChar`/`Parse`:
`io.EOF`, `truncated escape sequence: %s`, `invalid escape sequence: %s`,
`invalid character class name: %s`, `unterminated escape sequence: %s` and
`bad character range: %s`, each carrying the interpolated substring. -/
inductive PErr where
  | eof : PErr
  | truncated : List Nat → PErr
  | invalid : List Nat → PErr
  | invalidClassName : List Nat → PErr
  | unterminated : List Nat → PErr
  | badRange : List Nat → PErr
deriving DecidableEq, Repr

/-- Value of one hexadecimal digit byte, as accepted by
`strconv.ParseUint(_, 16, 32)`: `0-9`, `a-f`, `A-F`. -/
def hexDigit (b : Nat) : Option Nat :=
  if 48 ≤ b ∧ b ≤ 57 then some (b - 48)
  else if 97 ≤ b ∧ b ≤ 102 then some (b - 87)
  else if 65 ≤ b ∧ b ≤ 70 then some (b - 55)
  else none

/-- `strconv.ParseUint(string(bs), 16, 32)` for a nonempty digit string of at
most 8 digits (so the 32-bit range check never fires): `none` is the parse
error on any non-hex-digit byte. -/
def parseHex : List Nat → Option Nat
  | [] => none
  | [b] => hexDigit b
  | b :: rest => do
    let d ← hexDigit b
    let r ← parseHex rest
    pure (d * 16 ^ rest.length + r)

/-- Go's conversion `rune(n)` of an unsigned value `n < 2^32` to the signed
32-bit `rune` type. -/
def toInt32 (n : Nat) : Int :=
  if n < 2147483648 then (n : Int) else (n : Int) - 4294967296

/-- `utf8.ValidRune`: in `[0, 0x10FFFF]` and not a surrogate. -/
def validRune (r : Int) : Bool :=
  (0 ≤ r && r < 0xD800) || (0xDFFF < r && r ≤ 0x10FFFF)

/-- `utf8.DecodeRuneInString` on a byte string: the first decoded rune and
the number of bytes consumed.  On the empty string `(RuneError, 0)`; on any
ill-formed or truncated leading sequence `(RuneError, 1)`, where
`RuneError = U+FFFD`.  The accept windows for the second byte
(`0xA0..` after `0xE0`, `..0x9F` after `0xED`, `0x90..` after `0xF0`,
`..0x8F` after `0xF4`) exclude overlong encodings, surrogates, and values
above `0x10FFFF`, exactly as in Go's first-byte/accept-range tables. -/
def decodeRune (s : List Nat) : Int × Nat :=
  match s with
  | [] => (0xFFFD, 0)
  | b0 :: rest =>
    if b0 < 0x80 then ((b0 : Int), 1)
    else if b0 < 0xC2 then (0xFFFD, 1)
    else if b0 ≤ 0xDF then
      match rest with
      | b1 :: _ =>
        if 0x80 ≤ b1 ∧ b1 ≤ 0xBF then
          (((b0 - 0xC0) * 64 + (b1 - 0x80) : Nat), 2)
        else (0xFFFD, 1)
      | [] => (0xFFFD, 1)
    else if b0 ≤ 0xEF then
      match rest with
      | b1 :: rest2 =>
        if (if b0 = 0xE0 then 0xA0 else 0x80) ≤ b1 ∧
            b1 ≤ (if b0 = 0xED then 0x9F else 0xBF) then
          match rest2 with
          | b2 :: _ =>
            if 0x80 ≤ b2 ∧ b2 ≤ 0xBF then
              (((b0 - 0xE0) * 4096 + (b1 - 0x80) * 64 + (b2 - 0x80) : Nat), 3)
            else (0xFFFD, 1)
          | [] => (0xFFFD, 1)
        else (0xFFFD, 1)
      | [] => (0xFFFD, 1)
    else if b0 ≤ 0xF4 then
      match rest with
      | b1 :: rest2 =>
        if (if b0 = 0xF0 then 0x90 else 0x80) ≤ b1 ∧
            b1 ≤ (if b0 = 0xF4 then 0x8F else 0xBF) then
          match rest2 with
          | b2 :: rest3 =>
            if 0x80 ≤ b2 ∧ b2 ≤ 0xBF then
              match rest3 with
              | b3 :: _ =>
                if 0x80 ≤ b3 ∧ b3 ≤ 0xBF then
                  (((b0 - 0xF0) * 262144 + (b1 - 0x80) * 4096 +
                    (b2 - 0x80) * 64 + (b3 - 0x80) : Nat), 4)
                else (0xFFFD, 1)
              | [] => (0xFFFD, 1)
            else (0xFFFD, 1)
          | [] => (0xFFFD, 1)
        else (0xFFFD, 1)
      | [] => (0xFFFD, 1)
    else (0xFFFD, 1)

/-- The standard UTF-8 encoding of a Unicode scalar value (what Go's
`utf8.EncodeRune` emits for a valid rune). -/
def utf8Encode (r : Nat) : List Nat :=
  if r < 0x80 then [r]
  else if r < 0x800 then [0xC0 + r / 64, 0x80 + r % 64]
  else if r < 0x10000 then
    [0xE0 + r / 4096, 0x80 + (r / 64) % 64, 0x80 + r % 64]
  else
    [0xF0 + r / 262144, 0x80 + (r / 4096) % 64, 0x80 + (r / 64) % 64,
      0x80 + r % 64]

/-- A Unicode scalar value: in `[0, 0x10FFFF]` and not a surrogate. -/
def IsScalar (r : Nat) : Prop :=
  r < 0xD800 ∨ (0xDFFF < r ∧ r ≤ 0x10FFFF)

instance (r : Nat) : Decidable (IsScalar r) := by
  unfold IsScalar; infer_instance

/-- The fixed-value arms of `decodeChar`'s `switch s[1]`:
`\-`, `\\`, `\0`, `\a`, `\b`, `\t`, `\n`, `\v`, `\f`, `\r`, `\e`. -/
def escValue (c : Nat) : Option Int :=
  if c = 45 ∨ c = 92 then some (c : Int)
  else if c = 48 then some 0x00
  else if c = 97 then some 0x07
  else if c = 98 then some 0x08
  else if c = 116 then some 0x09
  else if c = 110 then some 0x0A
  else if c = 118 then some 0x0B
  else if c = 102 then some 0x0C
  else if c = 114 then some 0x0D
  else if c = 101 then some 0x1B
  else none

/-- The `\xHH` / `\uHHHH` / `\UHHHHHHHH` arms of `decodeChar`: length guard,
`strconv.ParseUint(s[2:2+ndig], 16, 32)`, the cast `rune(n)`, and (for `\u`
and `\U`, where `checked` is true) the `utf8.ValidRune` test.  For `\x`
(`checked` false) `n ≤ 0xFF`, so `rune(n) = n`. -/
def hexEscape (s : List Nat) (ndig : Nat) (checked : Bool) : Except PErr (Int × Nat) :=
  if s.length < ndig + 2 then .error (.truncated s)
  else
    match parseHex ((s.drop 2).take ndig) with
    | none => .error (.invalid (s.take (ndig + 2)))
    | some n =>
      if checked then
        if validRune (toInt32 n) then .ok (toInt32 n, ndig + 2)
        else .error (.invalid (s.take (ndig + 2)))
      else .ok ((n : Int), ndig + 2)

/-- `func decodeChar(s string) (rune, int, error)`. -/
def decodeChar (s : List Nat) : Except PErr (Int × Nat) :=
  match s with
  | [] => .error .eof
  | b0 :: rest =>
    if b0 ≠ 92 then
      let p := decodeRune s
      .ok (p.1, p.2)
    else
      match rest with
      | [] => .error (.truncated s)
      | c :: _ =>
        match escValue c with
        | some v => .ok (v, 2)
        | none =>
          if c = 120 then hexEscape s 2 false
          else if c = 117 then hexEscape s 4 true
          else if c = 85 then hexEscape s 8 true
          else .error (.invalid (s.take 2))

/-- A Unicode table as supplied by the `unicode` package: always
well-formed. -/
def UTable := { t : RangeTable // WFTable t }

/-- The external collaborators `unicode.Categories` and `unicode.Scripts`:
maps from names (Go strings, here byte lists) to well-formed range tables.
The parser is parametric in them. -/
def TableEnv := List Nat → Option UTable

/-- `func decodeCharClass(set *RuneSet, s string) (int, error)`, returning the
(possibly mutated) set, the number of consumed bytes, and the error.  The
`AddRange` calls with literal bounds cannot panic and appear as `addRangeF`;
`AddRangeTable` on the well-formed tables of a `TableEnv` always returns
`some` (proved below), so the `getD` default is unreachable. -/
def decodeCharClass (cats scripts : TableEnv) (set : List Range) (s : List Nat) :
    List Range × Nat × Option PErr :=
  match s with
  | b0 :: c :: srest =>
    if b0 ≠ 92 then (set, 0, none)
    else if c = 100 then (addRangeF set 48 57, 2, none)
    else if c = 108 then (addRangeF set 97 122, 2, none)
    else if c = 76 then (addRangeF set 65 90, 2, none)
    else if c = 119 then
      (addRangeF (addRangeF (addRangeF set 48 57) 65 90) 97 122, 2, none)
    else if c = 115 then
      (addRangeF (addRangeF (addRangeF (addRangeF set 33 47) 58 64) 91 96) 123 126,
        2, none)
    else if c = 103 then (addRangeF set 33 126, 2, none)
    else if c = 112 then
      match srest with
      | [] => (set, 0, some (.truncated s))
      | c2 :: _ =>
        if c2 ≠ 123 then
          match cats [c2] with
          | some t => ((addRangeTable set t.1).getD set, 3, none)
          | none => (set, 0, some (.invalidClassName (s.take 3)))
        else
          match s.findIdx? (· = 125) with
          | none => (set, 0, some (.unterminated s))
          | some «end» =>
            let name := (s.drop 3).take («end» - 3)
            match cats name with
            | some t => ((addRangeTable set t.1).getD set, «end» + 1, none)
            | none =>
              match scripts name with
              | some t => ((addRangeTable set t.1).getD set, «end» + 1, none)
              | none => (set, 0, some (.invalidClassName (s.take («end» + 1))))
    else (set, 0, none)
  | _ => (set, 0, none)

theorem decodeCharClass_size_pos (cats scripts : TableEnv) (set : List Range)
    (s : List Nat) : (decodeCharClass cats scripts set s).2.1 ≠ 0 →
    1 ≤ (decodeCharClass cats scripts set s).2.1 := by
  omega

theorem decodeRune_size_pos (b0 : Nat) (rest : List Nat) :
    1 ≤ (decodeRune (b0 :: rest)).2 := by
  simp only [decodeRune]
  repeat' split
  all_goals exact Nat.succ_le_succ (Nat.zero_le _)

theorem hexEscape_size_pos (s : List Nat) (ndig : Nat) (checked : Bool)
    (r : Int) (n : Nat) (h : hexEscape s ndig checked = .ok (r, n)) : 1 ≤ n := by
  rw [hexEscape] at h
  repeat' split at h
  all_goals
    first
    | exact Except.noConfusion h
    | (injection h with h2; rw [Prod.mk.injEq] at h2; omega)

theorem decodeChar_size_pos (s : List Nat) (r : Int) (n : Nat)
    (h : decodeChar s = .ok (r, n)) : 1 ≤ n := by
  match s with
  | [] => simp [decodeChar] at h
  | b0 :: rest =>
    simp only [decodeChar] at h
    by_cases h0 : b0 ≠ 92
    · rw [if_pos h0] at h
      injection h with h
      rw [Prod.mk.injEq] at h
      have := decodeRune_size_pos b0 rest
      omega
    · rw [if_neg h0] at h
      match rest with
      | [] => exact Except.noConfusion h
      | c :: rest2 =>
        simp only at h
        repeat' split at h
        all_goals
          first
          | exact Except.noConfusion h
          | (injection h with h2; rw [Prod.mk.injEq] at h2; omega)
          | exact hexEscape_size_pos _ _ _ _ _ h

/-- The `for len(s) != 0` loop of `func Parse(s string) (RuneSet, error)`,
carrying the set being built.  Error paths return `(RuneSet{}, err)` — the
empty set — exactly as in the source.  The `AddRange(lo, hi)` call on the
range path is `addRangeF` because the preceding `lo > hi` test makes its
panic unreachable. -/
def parseLoop (cats scripts : TableEnv) (set : List Range) (s : List Nat) :
    List Range × Option PErr :=
  match hs : s with
  | [] => (set, none)
  | _ :: _ =>
    match (decodeCharClass cats scripts set s).2.2 with
    | some e => ([], some e)
    | none =>
      if hsz : (decodeCharClass cats scripts set s).2.1 ≠ 0 then
        parseLoop cats scripts (decodeCharClass cats scripts set s).1
          (s.drop (decodeCharClass cats scripts set s).2.1)
      else
        match hd : decodeChar s with
        | .error e => ([], some e)
        | .ok (lo, losize) =>
          if s.get? losize = some 45 then
            match decodeChar (s.drop (losize + 1)) with
            | .ok (hi, hisize) =>
              if lo > hi then
                ([], some (.badRange (s.take (losize + hisize + 1))))
              else
                parseLoop cats scripts (addRangeF set lo hi)
                  (s.drop (losize + hisize + 1))
            | .error _ => parseLoop cats scripts (add set lo) (s.drop losize)
          else parseLoop cats scripts (add set lo) (s.drop losize)
termination_by s.length
decreasing_by
  · have h1 : 1 ≤ (decodeCharClass cats scripts set s).2.1 :=
      decodeCharClass_size_pos cats scripts set s hsz
    subst hs
    simp only [List.length_drop, List.length_cons]
    omega
  · have h1 : 1 ≤ losize := decodeChar_size_pos s lo losize hd
    subst hs
    simp only [List.length_drop, List.length_cons]
    omega
  · have h1 : 1 ≤ losize := decodeChar_size_pos s lo losize hd
    subst hs
    simp only [List.length_drop, List.length_cons]
    omega
  · have h1 : 1 ≤ losize := decodeChar_size_pos s lo losize hd
    subst hs
    simp only [List.length_drop, List.length_cons]
    omega

/-- `func Parse(s string) (RuneSet, error)`: run the loop from the empty set,
then `set.MergeAdjacents()` on success; every error path yields
`(RuneSet{}, err)`. -/
def parse (cats scripts : TableEnv) (s : List Nat) : List Range × Option PErr :=
  match parseLoop cats scripts [] s with
  | (set, none) => (mergeAdjacents set, none)
  | (_, some e) => ([], some e)

/-- The empty table environment (every name lookup misses). -/
def emptyEnv : TableEnv := fun _ => none

/-- One builder mutation: `Add`, `AddRange` or `AddRangeTable`. -/
inductive Op where
  | addOp : Int → Op
  | addRangeOp : Int → Int → Op
  | addTableOp : RangeTable → Op

/-- Apply one mutation to a builder state (`none` models a panic or
divergence). -/
def applyOp (l : List Range) : Op → Option (List Range)
  | .addOp r => some (add l r)
  | .addRangeOp lo hi => addRange l lo hi
  | .addTableOp t => addRangeTable l t

/-- Run a finite sequence of builder mutations. -/
def runOps (l : List Range) : List Op → Option (List Range)
  | [] => some l
  | op :: ops => (applyOp l op).bind (fun l1 => runOps l1 ops)

/-- The tables referenced by a mutation sequence are well formed. -/
def WFOps (ops : List Op) : Prop :=
  ∀ t : RangeTable, Op.addTableOp t ∈ ops → WFTable t

/-! ## Basic lemmas about `compare` and the binary searches -/

theorem compare_lt_iff (a : Range) (r : Int) : compare a r < 0 ↔ a.hi < r := by
  unfold compare
  split_ifs <;> omega

theorem compare_eq_zero_iff (a : Range) (r : Int) :
    compare a r = 0 ↔ a.lo ≤ r ∧ r ≤ a.hi := by
  unfold compare
  split_ifs <;> simp <;> omega

theorem binarySearchFunc_le_length (l : List Range) (r : Int) :
    (binarySearchFunc l r).1 ≤ l.length := by
  induction l with
  | nil => simp [binarySearchFunc]
  | cons a rest ih =>
    rw [binarySearchFunc]
    split
    · simpa using ih
    · simp

theorem binarySearchFunc_mono (l : List Range) (r1 r2 : Int) (h : r1 ≤ r2) :
    (binarySearchFunc l r1).1 ≤ (binarySearchFunc l r2).1 := by
  induction l with
  | nil => simp [binarySearchFunc]
  | cons a rest ih =>
    rw [binarySearchFunc, binarySearchFunc]
    by_cases h1 : compare a r1 < 0
    · have h2 : compare a r2 < 0 := by
        rw [compare_lt_iff] at h1 ⊢
        omega
      rw [if_pos h1, if_pos h2]
      simpa using ih
    · rw [if_neg h1]
      split <;> simp

/-- Zone decomposition of a binary search on an ordered interval list:
the list splits as `pre ++ suf` at the returned index, everything in `pre`
ends before `r`, everything in `suf` ends at or after `r`; when found the
head of `suf` contains `r`, when not found every interval of `suf` begins
strictly after `r` (so no interval contains `r`). -/
theorem binarySearchFunc_zones (l : List Range) (r : Int) (ho : Ordered l) :
    ∃ pre suf, l = pre ++ suf ∧ (binarySearchFunc l r).1 = pre.length ∧
      (∀ a ∈ pre, a.hi < r) ∧ (∀ b ∈ suf, r ≤ b.hi) ∧
      (((binarySearchFunc l r).2 = true ∧
          ∃ b rest, suf = b :: rest ∧ b.lo ≤ r ∧ r ≤ b.hi) ∨
       ((binarySearchFunc l r).2 = false ∧ ∀ b ∈ suf, r < b.lo)) := by
  induction l with
  | nil =>
    refine ⟨[], [], by simp, by simp [binarySearchFunc], by simp, by simp, ?_⟩
    right
    simp [binarySearchFunc]
  | cons a rest ih =>
    obtain ⟨hle, hpw⟩ := ho
    have hle' : ∀ x ∈ rest, x.lo ≤ x.hi := fun x hx => hle x (List.mem_cons_of_mem a hx)
    have hpwa : ∀ x ∈ rest, a.hi < x.lo := (List.pairwise_cons.mp hpw).1
    have hpw' : rest.Pairwise (fun x y => x.hi < y.lo) := (List.pairwise_cons.mp hpw).2
    rw [binarySearchFunc]
    by_cases hc : compare a r < 0
    · rw [if_pos hc]
      rw [compare_lt_iff] at hc
      obtain ⟨pre, suf, hsplit, hidx, hpre, hsufhi, hdisj⟩ := ih ⟨hle', hpw'⟩
      refine ⟨a :: pre, suf, by simp [hsplit], by simp [hidx], ?_, hsufhi, hdisj⟩
      intro x hx
      rcases List.mem_cons.mp hx with hx | hx
      · subst hx; exact hc
      · exact hpre x hx
    · rw [if_neg hc]
      rw [compare_lt_iff] at hc
      refine ⟨[], a :: rest, by simp, by simp, by simp, ?_, ?_⟩
      · intro b hb
        rcases List.mem_cons.mp hb with hb | hb
        · subst hb; omega
        · have := hpwa b hb
          have := hle' b hb
          omega
      · by_cases hz : compare a r = 0
        · left
          refine ⟨by simp [hz], a, rest, rfl, ?_⟩
          rw [compare_eq_zero_iff] at hz
          exact hz
        · right
          refine ⟨by simp [hz], ?_⟩
          intro b hb
          rcases List.mem_cons.mp hb with hb | hb
          · subst hb
            unfold compare at hz
            split_ifs at hz <;> omega
          · have := hpwa b hb
            omega

/-- Two intervals of an ordered list containing the same point coincide. -/
theorem mem_unique (l : List Range) (a b : Range) (v : Int) (ho : Ordered l)
    (ha : a ∈ l) (hb : b ∈ l) (h1 : a.lo ≤ v) (h2 : v ≤ a.hi)
    (h3 : b.lo ≤ v) (h4 : v ≤ b.hi) : a = b := by
  induction l with
  | nil => cases ha
  | cons x rest ih =>
    obtain ⟨hle, hpw⟩ := ho
    have hpwx : ∀ y ∈ rest, x.hi < y.lo := (List.pairwise_cons.mp hpw).1
    rcases List.mem_cons.mp ha with rfl | ha' <;>
      rcases List.mem_cons.mp hb with rfl | hb'
    · rfl
    · exact absurd (hpwx b hb') (by omega)
    · exact absurd (hpwx a ha') (by omega)
    · exact ih ⟨fun y hy => hle y (List.mem_cons_of_mem x hy),
        (List.pairwise_cons.mp hpw).2⟩ ha' hb'

theorem memberOf_append (l1 l2 : List Range) (r : Int) :
    memberOf (l1 ++ l2) r ↔ memberOf l1 r ∨ memberOf l2 r := by
  unfold memberOf
  simp [List.mem_append, or_and_right, exists_or]

theorem memberOf_cons (a : Range) (l : List Range) (r : Int) :
    memberOf (a :: l) r ↔ (a.lo ≤ r ∧ r ≤ a.hi) ∨ memberOf l r := by
  unfold memberOf
  simp [List.mem_cons, or_and_right, exists_or]

/-! ## `Add` -/

/-- Full characterisation of `Add` on an ordered set: a contained point is a
no-op; an uncontained point is inserted as exactly the singleton `[v, v]`
between the intervals ending before it and the intervals beginning after it,
all of them left unchanged (in particular no merging with a numerically
adjacent neighbour). -/
theorem add_spec (l : List Range) (v : Int) (ho : Ordered l) :
    (memberOf l v → add l v = l) ∧
    (¬ memberOf l v →
      ∃ pre suf, l = pre ++ suf ∧ add l v = pre ++ ⟨v, v⟩ :: suf ∧
        (∀ a ∈ pre, a.hi < v) ∧ (∀ b ∈ suf, v < b.lo)) := by
  obtain ⟨pre, suf, hsplit, hidx, hpre, hsufhi, hdisj⟩ :=
    binarySearchFunc_zones l v ho
  rcases hdisj with ⟨hf, b, rest, hsufeq, hblo, hbhi⟩ | ⟨hf, hsuflo⟩
  · have hmem : memberOf l v := by
      refine ⟨b, ?_, hblo, hbhi⟩
      rw [hsplit, hsufeq]
      simp
    have hadd : add l v = l := by
      unfold add
      rw [hf]
      simp
    exact ⟨fun _ => hadd, fun hn => absurd hmem hn⟩
  · have hnm : ¬ memberOf l v := by
      rintro ⟨a, hal, h1, h2⟩
      rw [hsplit, List.mem_append] at hal
      rcases hal with hal | hal
      · exact absurd (hpre a hal) (by omega)
      · exact absurd (hsuflo a hal) (by omega)
    refine ⟨fun hm => absurd hm hnm, fun _ => ⟨pre, suf, hsplit, ?_, hpre, hsuflo⟩⟩
    unfold add
    rw [hf]
    simp only [Bool.false_eq_true, if_false]
    rw [hidx, hsplit, List.take_left, List.drop_left]

/-! ## `AddRange` -/

/-- Full characterisation of `AddRange` on an ordered set with `lo ≤ hi`:
the list splits into the intervals ending before `lo` (`pre`), the contiguous
run intersecting `[lo, hi]` (`mid`), and the intervals beginning after `hi`
(`suf`); the run is replaced by the single interval `[lo', hi']`, whose
bounds extend `[lo, hi]` exactly to the bounds of the intervals containing
`lo` resp. `hi` (if any), and `pre`/`suf` are untouched. -/
theorem addRangeF_spec (l : List Range) (lo hi : Int) (ho : Ordered l)
    (hlh : lo ≤ hi) :
    ∃ pre mid suf lo' hi',
      l = pre ++ mid ++ suf ∧
      addRangeF l lo hi = pre ++ ⟨lo', hi'⟩ :: suf ∧
      lo' ≤ lo ∧ hi ≤ hi' ∧
      (∀ a ∈ pre, a.hi < lo) ∧ (∀ a ∈ pre, a.hi < lo') ∧
      (∀ b ∈ suf, hi < b.lo) ∧ (∀ b ∈ suf, hi' < b.lo) ∧
      (∀ a ∈ mid, lo ≤ a.hi ∧ a.lo ≤ hi) ∧
      (∀ a ∈ mid, lo' ≤ a.lo ∧ a.hi ≤ hi') ∧
      (∀ a ∈ l, a.lo ≤ lo → lo ≤ a.hi → lo' = a.lo) ∧
      ((∀ a ∈ l, ¬(a.lo ≤ lo ∧ lo ≤ a.hi)) → lo' = lo) ∧
      (∀ a ∈ l, a.lo ≤ hi → hi ≤ a.hi → hi' = a.hi) ∧
      ((∀ a ∈ l, ¬(a.lo ≤ hi ∧ hi ≤ a.hi)) → hi' = hi) ∧
      (lo' = lo ∨ ∃ aL ∈ l, aL.lo = lo' ∧ aL.lo ≤ lo ∧ lo ≤ aL.hi) ∧
      (hi' = hi ∨ ∃ aH ∈ l, aH.hi = hi' ∧ aH.lo ≤ hi ∧ hi ≤ aH.hi) := by
  obtain ⟨preL, sufL, hsL, hiL, hpreL, hsufLhi, hdL⟩ :=
    binarySearchFunc_zones l lo ho
  obtain ⟨preH, sufH, hsH, hiH, hpreH, hsufHhi, hdH⟩ :=
    binarySearchFunc_zones l hi ho
  have hmono := binarySearchFunc_mono l lo hi hlh
  rw [hiL, hiH] at hmono
  have htakeL : l.take preL.length = preL := by rw [hsL, List.take_left]
  have htakeH : l.take preH.length = preH := by rw [hsH, List.take_left]
  have hdropL : l.drop preL.length = sufL := by rw [hsL, List.drop_left]
  have hdropH : l.drop preH.length = sufH := by rw [hsH, List.drop_left]
  have hpreLH : preH.take preL.length = preL := by
    rw [← htakeH, List.take_take, Nat.min_eq_left hmono, htakeL]
  have hpreH_split : preH = preL ++ preH.drop preL.length := by
    conv_lhs => rw [← List.take_append_drop preL.length preH]
    rw [hpreLH]
  have hsufL_split : sufL = preH.drop preL.length ++ sufH := by
    have hx : preL ++ sufL = preL ++ (preH.drop preL.length ++ sufH) := by
      rw [← hsL, ← List.append_assoc, ← hpreH_split, hsH]
    exact List.append_cancel_left hx
  -- the part of `preH` after `preL`, i.e. the run elements strictly before
  -- the interval containing `hi` (if any)
  have hmid_mem : ∀ a ∈ preH.drop preL.length,
      a ∈ sufL ∧ a ∈ preH ∧ a ∈ l := by
    intro a ha
    refine ⟨by rw [hsufL_split]; exact List.mem_append_left _ ha,
      List.mem_of_mem_drop ha, ?_⟩
    rw [hsH]
    exact List.mem_append_left _ (List.mem_of_mem_drop ha)
  have hpw : l.Pairwise (fun a b => a.hi < b.lo) := ho.2
  have hwf : ∀ a ∈ l, a.lo ≤ a.hi := ho.1
  -- lo-side bound
  have hloSide : ∃ lo',
      (if (binarySearchFunc l lo).2
        then (l.getD (binarySearchFunc l lo).1 ⟨0, 0⟩).lo else lo) = lo' ∧
      lo' ≤ lo ∧ (∀ a ∈ sufL, lo' ≤ a.lo) ∧
      (∀ a ∈ l, a.lo ≤ lo → lo ≤ a.hi → lo' = a.lo) ∧
      ((∀ a ∈ l, ¬(a.lo ≤ lo ∧ lo ≤ a.hi)) → lo' = lo) ∧
      (∀ a ∈ preL, a.hi < lo') ∧
      (lo' = lo ∨ ∃ aL ∈ l, aL.lo = lo' ∧ aL.lo ≤ lo ∧ lo ≤ aL.hi) := by
    rcases hdL with ⟨hfL, bL, restL, hsufLeq, hbLlo, hbLhi⟩ | ⟨hfL, hsufLlo⟩
    · have hbLl : bL ∈ l := by
        rw [hsL, hsufLeq]
        exact List.mem_append_right _ (List.mem_cons_self _ _)
      have hget : l.get? preL.length = some bL := by
        rw [hsL, List.get?_append_right (le_refl _), Nat.sub_self, hsufLeq]
        rfl
      have hgetD : l.getD preL.length ⟨0, 0⟩ = bL := by
        rw [List.getD_eq_getD_get?, hget]
        rfl
      refine ⟨bL.lo, ?_, hbLlo, ?_, ?_, ?_, ?_, ?_⟩
      · rw [if_pos hfL, hiL, hgetD]
      · intro a ha
        rw [hsufLeq, List.mem_cons] at ha
        rcases ha with rfl | ha
        · exact le_refl _
        · have hpwL : sufL.Pairwise (fun a b => a.hi < b.lo) := by
            rw [hsL, List.pairwise_append] at hpw
            exact hpw.2.1
          rw [hsufLeq, List.pairwise_cons] at hpwL
          have := hpwL.1 a ha
          have := hwf bL hbLl
          omega
      · intro a hal h1 h2
        rw [mem_unique l a bL lo ho hal hbLl h1 h2 hbLlo hbLhi]
      · intro hnone
        exact absurd ⟨hbLlo, hbLhi⟩ (hnone bL hbLl)
      · intro a ha
        have hpwls : ∀ x ∈ preL, ∀ y ∈ sufL, x.hi < y.lo := by
          rw [hsL, List.pairwise_append] at hpw
          exact hpw.2.2
        have : bL ∈ sufL := by rw [hsufLeq]; exact List.mem_cons_self _ _
        exact hpwls a ha bL this
      · right
        exact ⟨bL, hbLl, rfl, hbLlo, hbLhi⟩
    · refine ⟨lo, ?_, le_refl _, ?_, ?_, fun _ => rfl, ?_, Or.inl rfl⟩
      · rw [if_neg (by rw [hfL]; exact Bool.false_ne_true)]
      · intro a ha
        exact le_of_lt (hsufLlo a ha)
      · intro a hal h1 h2
        rw [hsL, List.mem_append] at hal
        rcases hal with hal | hal
        · exact absurd (hpreL a hal) (by omega)
        · exact absurd (hsufLlo a hal) (by omega)
      · exact hpreL
  obtain ⟨lo', hlodef, hlole, hlosufL, hlocont, hlonc, hpreLlo', hloabs⟩ := hloSide
  -- hi-side: bound, replacement cut `j`, and the resulting suffix
  have hhiSide : ∃ hi' j suf,
      (if (binarySearchFunc l hi).2
        then (l.getD (binarySearchFunc l hi).1 ⟨0, 0⟩).hi else hi) = hi' ∧
      (if (binarySearchFunc l hi).2
        then (binarySearchFunc l hi).1 + 1 else (binarySearchFunc l hi).1) = j ∧
      l.drop j = suf ∧
      l = preL ++ (preH.drop preL.length ++ (l.take j).drop preH.length) ++ suf ∧
      hi ≤ hi' ∧
      (∀ b ∈ suf, hi < b.lo) ∧ (∀ b ∈ suf, hi' < b.lo) ∧
      (∀ a ∈ (l.take j).drop preH.length,
        (lo ≤ a.hi ∧ a.lo ≤ hi) ∧ (lo' ≤ a.lo ∧ a.hi ≤ hi') ∧ a ∈ l) ∧
      (∀ a ∈ preH.drop preL.length, a.hi ≤ hi') ∧
      (∀ a ∈ l, a.lo ≤ hi → hi ≤ a.hi → hi' = a.hi) ∧
      ((∀ a ∈ l, ¬(a.lo ≤ hi ∧ hi ≤ a.hi)) → hi' = hi) ∧
      (hi' = hi ∨ ∃ aH ∈ l, aH.hi = hi' ∧ aH.lo ≤ hi ∧ hi ≤ aH.hi) := by
    have hpwHsplit : ∀ x ∈ preH, ∀ y ∈ sufH, x.hi < y.lo := by
      rw [hsH, List.pairwise_append] at hpw
      exact hpw.2.2
    have hpwsufH : sufH.Pairwise (fun a b => a.hi < b.lo) := by
      rw [hsH, List.pairwise_append] at hpw
      exact hpw.2.1
    rcases hdH with ⟨hfH, b0, restH, hsufHeq, hb0lo, hb0hi⟩ | ⟨hfH, hsufHlo⟩
    · have hb0l : b0 ∈ l := by
        rw [hsH, hsufHeq]
        exact List.mem_append_right _ (List.mem_cons_self _ _)
      have hb0sufL : b0 ∈ sufL := by
        rw [hsufL_split, hsufHeq]
        exact List.mem_append_right _ (List.mem_cons_self _ _)
      have hget : l.get? preH.length = some b0 := by
        rw [hsH, List.get?_append_right (le_refl _), Nat.sub_self, hsufHeq]
        rfl
      have hgetD : l.getD preH.length ⟨0, 0⟩ = b0 := by
        rw [List.getD_eq_getD_get?, hget]
        rfl
      have hpwb0 : ∀ c ∈ restH, b0.hi < c.lo := by
        rw [hsufHeq, List.pairwise_cons] at hpwsufH
        exact hpwsufH.1
      have hdropj : l.drop (preH.length + 1) = restH := by
        rw [← List.drop_drop, hdropH, hsufHeq, List.drop_one]
        rfl
      have htakej : (l.take (preH.length + 1)).drop preH.length = [b0] := by
        have h1 : l.take (preH.length + 1) = preH ++ [b0] := by
          rw [hsH, List.take_append, hsufHeq]
          rfl
        rw [h1, List.drop_left]
      refine ⟨b0.hi, preH.length + 1, restH, ?_, ?_, hdropj, ?_, hb0hi,
        ?_, ?_, ?_, ?_, ?_, ?_, ?_⟩
      · rw [if_pos hfH, hiH, hgetD]
      · rw [if_pos hfH, hiH]
      · rw [htakej]
        calc l = preH ++ sufH := hsH
        _ = (preL ++ preH.drop preL.length) ++ (b0 :: restH) := by
              rw [← hpreH_split, ← hsufHeq]
        _ = preL ++ (preH.drop preL.length ++ [b0]) ++ restH := by
              simp [List.append_assoc]
      · intro c hc
        have := hpwb0 c hc
        omega
      · exact hpwb0
      · intro a ha
        rw [htakej, List.mem_singleton] at ha
        subst ha
        exact ⟨⟨by omega, hb0lo⟩, ⟨hlosufL a hb0sufL, le_refl _⟩, hb0l⟩
      · intro a ha
        have := hpreH a (List.mem_of_mem_drop ha)
        omega
      · intro a hal h1 h2
        rw [mem_unique l a b0 hi ho hal hb0l h1 h2 hb0lo hb0hi]
      · intro hnone
        exact absurd ⟨hb0lo, hb0hi⟩ (hnone b0 hb0l)
      · right
        exact ⟨b0, hb0l, rfl, hb0lo, hb0hi⟩
    · have htakej : (l.take preH.length).drop preH.length = [] := by
        rw [htakeH, List.drop_length]
      refine ⟨hi, preH.length, sufH, ?_, ?_, hdropH, ?_, le_refl _,
        hsufHlo, hsufHlo, ?_, ?_, ?_, fun _ => rfl, Or.inl rfl⟩
      · rw [if_neg (by rw [hfH]; exact Bool.false_ne_true)]
      · rw [if_neg (by rw [hfH]; exact Bool.false_ne_true), hiH]
      · rw [htakej, List.append_nil, ← hpreH_split, ← hsH]
      · intro a ha
        rw [htakej] at ha
        cases ha
      · intro a ha
        have := hpreH a (List.mem_of_mem_drop ha)
        omega
      · intro a hal h1 h2
        rw [hsH, List.mem_append] at hal
        rcases hal with hal | hal
        · exact absurd (hpreH a hal) (by omega)
        · exact absurd (hsufHlo a hal) (by omega)
    done
  obtain ⟨hi', j, suf, hhidef, hjdef, hsufdef, hlspl, hhile, hsuf1, hsuf2,
    hextra, hmidhi, hhicont, hhinc, hhiabs⟩ := hhiSide
  refine ⟨preL, preH.drop preL.length ++ (l.take j).drop preH.length, suf,
    lo', hi', hlspl, ?_, hlole, hhile, hpreL, hpreLlo', hsuf1, hsuf2,
    ?_, ?_, hlocont, hlonc, hhicont, hhinc, hloabs, hhiabs⟩
  · unfold addRangeF
    rw [hlodef, hhidef, hjdef, hsufdef, hiL, htakeL]
  · intro a ha
    rw [List.mem_append] at ha
    rcases ha with ha | ha
    · obtain ⟨haSufL, haPreH, haL⟩ := hmid_mem a ha
      have h1 := hsufLhi a haSufL
      have h2 := hpreH a haPreH
      have h3 := hwf a haL
      exact ⟨by omega, by omega⟩
    · exact (hextra a ha).1
  · intro a ha
    rw [List.mem_append] at ha
    rcases ha with ha | ha
    · obtain ⟨haSufL, haPreH, haL⟩ := hmid_mem a ha
      exact ⟨hlosufL a haSufL, hmidhi a ha⟩
    · exact (hextra a ha).2.1

/-- `AddRange` (with `lo ≤ hi`) preserves the `RuneSet` invariant. -/
theorem addRangeF_ordered (l : List Range) (lo hi : Int) (ho : Ordered l)
    (hlh : lo ≤ hi) : Ordered (addRangeF l lo hi) := by
  obtain ⟨pre, mid, suf, lo', hi', hsplit, heq, hlole, hhile, hpre, hprelo,
    hsuf, hsufhi, hmidint, hmidcov, _, _, _, _, _, _⟩ :=
    addRangeF_spec l lo hi ho hlh
  rw [heq]
  obtain ⟨hwf, hpw⟩ := ho
  rw [hsplit] at hwf hpw
  rw [List.pairwise_append] at hpw
  obtain ⟨hpwPM, hpwS, hrelPMS⟩ := hpw
  rw [List.pairwise_append] at hpwPM
  obtain ⟨hpwP, hpwM, hrelPM⟩ := hpwPM
  constructor
  · intro a ha
    rw [List.mem_append, List.mem_cons] at ha
    rcases ha with ha | rfl | ha
    · exact hwf a (by simp [List.mem_append, ha])
    · simp only
      omega
    · exact hwf a (by simp [List.mem_append, ha])
  · rw [List.pairwise_append]
    refine ⟨hpwP, ?_, ?_⟩
    · rw [List.pairwise_cons]
      exact ⟨hsufhi, hpwS⟩
    · intro a ha b hb
      rw [List.mem_cons] at hb
      rcases hb with rfl | hb
      · exact hprelo a ha
      · exact hrelPMS a (List.mem_append_left _ ha) b hb

/-- `AddRange` (with `lo ≤ hi`) computes exactly the union of the old
membership with the inclusive range `[lo, hi]`. -/
theorem addRangeF_member (l : List Range) (lo hi : Int) (ho : Ordered l)
    (hlh : lo ≤ hi) (r : Int) :
    memberOf (addRangeF l lo hi) r ↔ memberOf l r ∨ (lo ≤ r ∧ r ≤ hi) := by
  obtain ⟨pre, mid, suf, lo', hi', hsplit, heq, hlole, hhile, hpre, hprelo,
    hsuf, hsufhi, hmidint, hmidcov, hlocont, hlonc, hhicont, hhinc,
    hloabs, hhiabs⟩ := addRangeF_spec l lo hi ho hlh
  rw [heq, memberOf_append, memberOf_cons]
  dsimp only
  constructor
  · rintro (hm | ⟨h1, h2⟩ | hm)
    · left
      rw [hsplit, memberOf_append, memberOf_append]
      exact Or.inl (Or.inl hm)
    · by_cases hrlo : r < lo
      · rcases hloabs with rfl | ⟨aL, haL, haLlo, h3, h4⟩
        · omega
        · exact Or.inl ⟨aL, haL, by omega, by omega⟩
      · by_cases hrhi : hi < r
        · rcases hhiabs with rfl | ⟨aH, haH, haHhi, h3, h4⟩
          · omega
          · exact Or.inl ⟨aH, haH, by omega, by omega⟩
        · right
          omega
    · left
      rw [hsplit, memberOf_append, memberOf_append]
      exact Or.inr hm
  · rintro (hm | ⟨h1, h2⟩)
    · rw [hsplit, memberOf_append, memberOf_append] at hm
      rcases hm with (hm | hm) | hm
      · exact Or.inl hm
      · obtain ⟨a, ha, h1, h2⟩ := hm
        have := hmidcov a ha
        exact Or.inr (Or.inl ⟨by omega, by omega⟩)
      · exact Or.inr (Or.inr hm)
    · exact Or.inr (Or.inl ⟨by omega, by omega⟩)
theorem add_ordered (l : List Range) (v : Int) (ho : Ordered l) :
    Ordered (add l v) := by
  by_cases hm : memberOf l v
  · rw [(add_spec l v ho).1 hm]
    exact ho
  · obtain ⟨pre, suf, hsplit, hadd, hpre, hsuf⟩ := (add_spec l v ho).2 hm
    rw [hadd]
    obtain ⟨hle, hpw⟩ := ho
    rw [hsplit] at hle hpw
    rw [List.pairwise_append] at hpw
    obtain ⟨hpw1, hpw2, hpw12⟩ := hpw
    constructor
    · intro a ha
      rw [List.mem_append, List.mem_cons] at ha
      rcases ha with ha | rfl | ha
      · exact hle a (by rw [List.mem_append]; left; exact ha)
      · exact le_refl v
      · exact hle a (by rw [List.mem_append]; right; exact ha)
    · rw [List.pairwise_append]
      refine ⟨hpw1, ?_, ?_⟩
      · rw [List.pairwise_cons]
        exact ⟨hsuf, hpw2⟩
      · intro a ha b hb
        rw [List.mem_cons] at hb
        rcases hb with rfl | hb
        · exact hpre a ha
        · exact hpw12 a ha b hb

/-! ## The invariant under arbitrary mutation sequences -/

theorem addStrided_ordered (l : List Range) (x hi stride : Nat)
    (ho : Ordered l) : Ordered (addStrided l x hi stride) := by
  induction l, x, hi, stride using addStrided.induct with
  | case1 l x hi =>
    simpa [addStrided] using ho
  | case2 l x hi stride h1 h2 ih =>
    rw [addStrided, if_neg h1, if_pos h2]
    exact ih (add_ordered l (x : Int) ho)
  | case3 l x hi stride h1 h2 =>
    rw [addStrided, if_neg h1, if_neg h2]
    exact ho

theorem addRange_ordered (l l' : List Range) (lo hi : Int) (ho : Ordered l)
    (h : addRange l lo hi = some l') : Ordered l' := by
  unfold addRange at h
  split at h
  · exact absurd h (by simp)
  · injection h with h
    rw [← h]
    exact addRangeF_ordered l lo hi ho (by omega)

theorem addBlock_ordered (l l' : List Range) (b : Block) (ho : Ordered l)
    (h : addBlock l b = some l') : Ordered l' := by
  unfold addBlock at h
  split at h
  · exact addRange_ordered l l' _ _ ho h
  · split at h
    · exact absurd h (by simp)
    · injection h with h
      rw [← h]
      exact addStrided_ordered l b.lo b.hi b.stride ho

theorem foldBlocks_ordered (bs : List Block) (l l' : List Range)
    (ho : Ordered l) (h : bs.foldlM addBlock l = some l') : Ordered l' := by
  induction bs generalizing l with
  | nil =>
    simp only [List.foldlM, Option.pure_def] at h
    injection h with h
    rw [← h]
    exact ho
  | cons b bs ih =>
    simp only [List.foldlM] at h
    match hb : addBlock l b with
    | none => rw [hb] at h; exact absurd h (by simp)
    | some l1 =>
      rw [hb] at h
      simp only [Option.bind_eq_bind, Option.some_bind] at h
      exact ih l1 (addBlock_ordered l l1 b ho hb) h

theorem addRangeTable_ordered (l l' : List Range) (t : RangeTable)
    (ho : Ordered l) (h : addRangeTable l t = some l') : Ordered l' := by
  unfold addRangeTable at h
  match h16 : t.r16.foldlM addBlock l with
  | none => rw [h16] at h; exact absurd h (by simp)
  | some l16 =>
    rw [h16] at h
    simp only [Option.some_bind] at h
    exact foldBlocks_ordered t.r32 l16 l'
      (foldBlocks_ordered t.r16 l l16 ho h16) h

theorem applyOp_ordered (l l' : List Range) (op : Op) (ho : Ordered l)
    (h : applyOp l op = some l') : Ordered l' := by
  match op with
  | .addOp r =>
    unfold applyOp at h
    injection h with h
    rw [← h]
    exact add_ordered l r ho
  | .addRangeOp lo hi => exact addRange_ordered l l' lo hi ho h
  | .addTableOp t => exact addRangeTable_ordered l l' t ho h

theorem runOps_ordered (ops : List Op) (l l' : List Range) (ho : Ordered l)
    (h : runOps l ops = some l') : Ordered l' := by
  induction ops generalizing l with
  | nil =>
    unfold runOps at h
    injection h with h
    rw [← h]
    exact ho
  | cons op ops ih =>
    unfold runOps at h
    match hop : applyOp l op with
    | none => rw [hop] at h; exact absurd h (by simp)
    | some l1 =>
      rw [hop] at h
      simp only [Option.some_bind] at h
      exact ih l1 (applyOp_ordered l l1 op ho hop) h

/-! ## The merge loop: equivalence with the list-level recursion -/

theorem absorb_le_length (cur : Range) (xs : List Range) :
    (absorb cur xs).2 ≤ xs.length := by
  induction xs generalizing cur with
  | nil => simp [absorb]
  | cons b rest ih =>
    rw [absorb]
    split
    · simpa using Nat.succ_le_succ (ih _)
    · simp

theorem scanRun_eq (arr : List Range) (cur : Range) (j : Nat) :
    scanRun arr cur j =
      ((absorb cur (arr.drop j)).1, j + (absorb cur (arr.drop j)).2) := by
  induction cur, j using scanRun.induct arr with
  | case1 cur j h hif ih =>
    rw [scanRun, dif_pos h, if_pos hif, ih]
    have hdj : arr.drop j = arr.get ⟨j, h⟩ :: arr.drop (j + 1) :=
      List.drop_eq_get_cons h
    rw [hdj, absorb, if_pos hif, Prod.mk.injEq]
    exact ⟨rfl, by omega⟩
  | case2 cur j h hif =>
    rw [scanRun, dif_pos h, if_neg hif]
    have hdj : arr.drop j = arr.get ⟨j, h⟩ :: arr.drop (j + 1) :=
      List.drop_eq_get_cons h
    rw [hdj, absorb, if_neg hif]
    simp
  | case3 cur j h =>
    rw [scanRun, dif_neg h]
    rw [List.drop_eq_nil_of_le (by omega), absorb]
    simp

theorem mergeRuns_cons_absorb (c : Range) (rest : List Range) :
    mergeRuns (c :: rest) =
      (absorb c rest).1 :: mergeRuns (rest.drop (absorb c rest).2) := by
  induction rest generalizing c with
  | nil => simp [mergeRuns, absorb]
  | cons b rest' ih =>
    by_cases hif : c.hi + 1 = b.lo
    · rw [mergeRuns, if_pos hif, absorb, if_pos hif]
      simp only [List.drop_succ_cons]
      exact ih _
    · rw [mergeRuns, if_neg hif, absorb, if_neg hif]
      simp

theorem mergeRuns_length_le (l : List Range) :
    (mergeRuns l).length ≤ l.length := by
  induction l using mergeRuns.induct with
  | case1 => simp [mergeRuns]
  | case2 a => simp [mergeRuns]
  | case3 a b rest hif ih =>
    rw [mergeRuns, if_pos hif]
    simpa using Nat.le_succ_of_le ih
  | case4 a b rest hif ih =>
    rw [mergeRuns, if_neg hif]
    simpa using ih

/-- The in-place outer loop, started at write index `i ≤ j`, computes
`mergeRuns` of the unread part into positions `i, i+1, …` of the backing
array and leaves everything beyond untouched. -/
theorem mergeOuter_eq (arr : List Range) (i j : Nat) (hij : i ≤ j) :
    mergeOuter arr i j =
      (arr.take i ++ mergeRuns (arr.drop j) ++
        arr.drop (i + (mergeRuns (arr.drop j)).length),
       i + (mergeRuns (arr.drop j)).length) := by
  induction arr, i, j using mergeOuter.induct with
  | case1 arr i j h ih =>
    have hlt : i < arr.length := by omega
    have hge := scanRun_ge arr (arr.get ⟨j, h⟩) (j + 1)
    rw [scanRun_eq] at ih hge
    rw [mergeOuter, dif_pos h, scanRun_eq]
    simp only at ih hge ⊢
    rw [ih (by omega)]
    have hdropA : ∀ k, i < k →
        (arr.set i (absorb (arr.get ⟨j, h⟩) (arr.drop (j + 1))).1).drop k =
          arr.drop k := by
      intro k hk
      rw [List.drop_set, if_pos hk]
    have htakeA :
        (arr.set i (absorb (arr.get ⟨j, h⟩) (arr.drop (j + 1))).1).take (i + 1) =
          arr.take i ++ [(absorb (arr.get ⟨j, h⟩) (arr.drop (j + 1))).1] := by
      rw [List.set_eq_take_cons_drop _ hlt]
      have hlen : (arr.take i).length = i := by
        simp [List.length_take]
        omega
      rw [show i + 1 = (arr.take i).length + 1 by omega, List.take_append]
      rfl
    have hmr : mergeRuns (arr.drop j) =
        (absorb (arr.get ⟨j, h⟩) (arr.drop (j + 1))).1 ::
          mergeRuns (arr.drop (j + 1 + (absorb (arr.get ⟨j, h⟩) (arr.drop (j + 1))).2)) := by
      rw [List.drop_eq_get_cons h, mergeRuns_cons_absorb, List.drop_drop]
    rw [htakeA, hdropA _ (by omega), hdropA _ (by omega), hmr]
    rw [Prod.mk.injEq]
    constructor
    · simp only [List.length_cons, List.append_assoc, List.singleton_append]
      have harith : i + 1 +
            (mergeRuns (arr.drop
              (j + 1 + (absorb (arr.get ⟨j, h⟩) (arr.drop (j + 1))).2))).length =
          i + ((mergeRuns (arr.drop
              (j + 1 + (absorb (arr.get ⟨j, h⟩) (arr.drop (j + 1))).2))).length + 1) := by
        omega
      rw [harith]
    · simp only [List.length_cons]
      omega
  | case2 arr i j h =>
    rw [mergeOuter, dif_neg h]
    rw [List.drop_eq_nil_of_le (by omega)]
    rw [mergeRuns]
    simp only [List.length_nil, List.append_nil, Nat.add_zero]
    rw [List.take_append_drop]

/-- The backing array after `MergeAdjacents`: the merged runs, followed by
the stale tail of the original array. -/
theorem mergeBacking_eq (l : List Range) :
    mergeBacking l = mergeRuns l ++ l.drop (mergeRuns l).length := by
  unfold mergeBacking
  rw [mergeOuter_eq l 0 0 (le_refl 0)]
  simp

/-- The builder's view of `MergeAdjacents` is exactly the list-level
`mergeRuns` recursion. -/
theorem mergeAdjacents_eq (l : List Range) : mergeAdjacents l = mergeRuns l := by
  unfold mergeAdjacents
  rw [mergeOuter_eq l 0 0 (le_refl 0)]
  simp only [List.take_zero, List.drop_zero, List.nil_append, Nat.zero_add]
  rw [List.take_left]

/-! ## Semantic properties of the merge -/

theorem absorb_lo (cur : Range) (xs : List Range) :
    (absorb cur xs).1.lo = cur.lo := by
  induction xs generalizing cur with
  | nil => simp [absorb]
  | cons b rest ih =>
    rw [absorb]
    split
    · exact ih _
    · rfl

theorem mergeRuns_lo_mem (m : List Range) (c : Range) (hc : c ∈ mergeRuns m) :
    ∃ d ∈ m, c.lo = d.lo := by
  induction m using mergeRuns.induct with
  | case1 => simp [mergeRuns] at hc
  | case2 a =>
    rw [mergeRuns] at hc
    rw [List.mem_singleton] at hc
    exact ⟨a, List.mem_singleton_self a, by rw [hc]⟩
  | case3 a b rest hif ih =>
    rw [mergeRuns, if_pos hif] at hc
    obtain ⟨d, hd, hdl⟩ := ih hc
    rw [List.mem_cons] at hd
    rcases hd with rfl | hd
    · exact ⟨a, List.mem_cons_self _ _, hdl⟩
    · exact ⟨d, List.mem_cons_of_mem _ (List.mem_cons_of_mem _ hd), hdl⟩
  | case4 a b rest hif ih =>
    rw [mergeRuns, if_neg hif, List.mem_cons] at hc
    rcases hc with rfl | hc
    · exact ⟨c, List.mem_cons_self _ _, rfl⟩
    · obtain ⟨d, hd, hdl⟩ := ih hc
      exact ⟨d, List.mem_cons_of_mem _ hd, hdl⟩

theorem ordered_merge_head (a b : Range) (rest : List Range)
    (ho : Ordered (a :: b :: rest)) (hif : a.hi + 1 = b.lo) :
    Ordered (⟨a.lo, b.hi⟩ :: rest) := by
  obtain ⟨hle, hpw⟩ := ho
  rw [List.pairwise_cons] at hpw
  obtain ⟨hrel, hpw⟩ := hpw
  rw [List.pairwise_cons] at hpw
  obtain ⟨hrelb, hpw⟩ := hpw
  constructor
  · intro x hx
    rw [List.mem_cons] at hx
    rcases hx with rfl | hx
    · have h1 := hle a (List.mem_cons_self _ _)
      have h2 := hle b (List.mem_cons_of_mem _ (List.mem_cons_self _ _))
      simp only
      omega
    · exact hle x (List.mem_cons_of_mem _ (List.mem_cons_of_mem _ hx))
  · rw [List.pairwise_cons]
    exact ⟨fun c hc => hrelb c hc, hpw⟩

theorem ordered_tail (a : Range) (l : List Range) (ho : Ordered (a :: l)) :
    Ordered l := by
  obtain ⟨hle, hpw⟩ := ho
  rw [List.pairwise_cons] at hpw
  exact ⟨fun x hx => hle x (List.mem_cons_of_mem _ hx), hpw.2⟩

/-- `MergeAdjacents` preserves the invariant. -/
theorem mergeRuns_ordered (l : List Range) (ho : Ordered l) :
    Ordered (mergeRuns l) := by
  induction l using mergeRuns.induct with
  | case1 => simpa [mergeRuns] using ho
  | case2 a => simpa [mergeRuns] using ho
  | case3 a b rest hif ih =>
    rw [mergeRuns, if_pos hif]
    exact ih (ordered_merge_head a b rest ho hif)
  | case4 a b rest hif ih =>
    rw [mergeRuns, if_neg hif]
    have hot : Ordered (b :: rest) := ordered_tail a _ ho
    have hmr := ih hot
    constructor
    · intro x hx
      rw [List.mem_cons] at hx
      rcases hx with rfl | hx
      · exact ho.1 x (List.mem_cons_self _ _)
      · exact hmr.1 x hx
    · rw [List.pairwise_cons]
      refine ⟨?_, hmr.2⟩
      intro c hc
      obtain ⟨d, hd, hdl⟩ := mergeRuns_lo_mem _ c hc
      have hpwa := (List.pairwise_cons.mp ho.2).1
      rw [hdl]
      exact hpwa d hd

/-- `MergeAdjacents` does not change the membership set. -/
theorem mergeRuns_member (l : List Range) (ho : Ordered l) (r : Int) :
    memberOf (mergeRuns l) r ↔ memberOf l r := by
  induction l using mergeRuns.induct with
  | case1 => rw [mergeRuns]
  | case2 a => rw [mergeRuns]
  | case3 a b rest hif ih =>
    rw [mergeRuns, if_pos hif]
    rw [ih (ordered_merge_head a b rest ho hif)]
    rw [memberOf_cons, memberOf_cons, memberOf_cons]
    have h1 := ho.1 a (List.mem_cons_self _ _)
    have h2 := ho.1 b (List.mem_cons_of_mem _ (List.mem_cons_self _ _))
    simp only
    constructor
    · rintro (hh | hh)
      · by_cases hr : r ≤ a.hi
        · exact Or.inl (by omega)
        · exact Or.inr (Or.inl (by omega))
      · exact Or.inr (Or.inr hh)
    · rintro (hh | hh | hh)
      · exact Or.inl (by omega)
      · exact Or.inl (by omega)
      · exact Or.inr hh
  | case4 a b rest hif ih =>
    rw [mergeRuns, if_neg hif, memberOf_cons, memberOf_cons,
      ih (ordered_tail a _ ho)]

/-- After `MergeAdjacents` no two neighbouring intervals touch: each gap is
at least one code point wide. -/
theorem mergeRuns_gap (l : List Range) (ho : Ordered l) :
    (mergeRuns l).Chain' (fun a b => a.hi + 1 < b.lo) := by
  induction l using mergeRuns.induct with
  | case1 => rw [mergeRuns]; exact List.chain'_nil
  | case2 a => rw [mergeRuns]; exact List.chain'_singleton a
  | case3 a b rest hif ih =>
    rw [mergeRuns, if_pos hif]
    exact ih (ordered_merge_head a b rest ho hif)
  | case4 a b rest hif ih =>
    rw [mergeRuns, if_neg hif]
    rw [List.chain'_cons']
    refine ⟨?_, ih (ordered_tail a _ ho)⟩
    intro y hy
    rw [mergeRuns_cons_absorb] at hy
    simp only [List.head?_cons, Option.mem_def, Option.some.injEq] at hy
    have hylo : y.lo = b.lo := by
      rw [← hy, absorb_lo]
    have hab : a.hi < b.lo := (List.pairwise_cons.mp ho.2).1 b
      (List.mem_cons_self _ _)
    rw [hylo]
    omega

/-- `MergeAdjacents` is the identity on a set with no touching neighbours. -/
theorem mergeRuns_noop (l : List Range)
    (hch : l.Chain' (fun a b => a.hi + 1 ≠ b.lo)) : mergeRuns l = l := by
  induction l using mergeRuns.induct with
  | case1 => rw [mergeRuns]
  | case2 a => rw [mergeRuns]
  | case3 a b rest hif ih =>
    exact absurd hif (List.chain'_cons.mp hch).1
  | case4 a b rest hif ih =>
    rw [mergeRuns, if_neg hif, ih (List.chain'_cons.mp hch).2]

/-- `MergeAdjacents` is idempotent. -/
theorem mergeRuns_idem (l : List Range) (ho : Ordered l) :
    mergeRuns (mergeRuns l) = mergeRuns l := by
  apply mergeRuns_noop
  exact (mergeRuns_gap l ho).imp (fun h => by omega)

/-! ## The `Picker` -/

theorem totalSize_eq_sum (l : List Range) :
    totalSize l = (l.map (fun a => a.hi - a.lo + 1)).sum := by
  suffices h : ∀ c : Int, l.foldl (fun s a => s + (a.hi - a.lo + 1)) c =
      c + (l.map (fun a => a.hi - a.lo + 1)).sum by
    have := h 0
    unfold totalSize
    omega
  induction l with
  | nil => intro c; simp
  | cons a rest ih =>
    intro c
    simp only [List.foldl_cons, List.map_cons, List.sum_cons, ih]
    omega

theorem totalSize_cons (a : Range) (rest : List Range) :
    totalSize (a :: rest) = (a.hi - a.lo + 1) + totalSize rest := by
  rw [totalSize_eq_sum, totalSize_eq_sum]
  simp

theorem totalSize_nonneg (l : List Range) (ho : Ordered l) :
    0 ≤ totalSize l := by
  induction l with
  | nil => simp [totalSize]
  | cons a rest ih =>
    rw [totalSize_cons]
    have h1 := ho.1 a (List.mem_cons_self _ _)
    have h2 := ih (ordered_tail a _ ho)
    omega

theorem cumSizesFrom_shift (l : List Range) (s : Int) :
    cumSizesFrom s l = (cumSizesFrom 0 l).map (fun x => s + x) := by
  induction l generalizing s with
  | nil => simp [cumSizesFrom]
  | cons a rest ih =>
    rw [cumSizesFrom, cumSizesFrom]
    simp only [List.map_cons]
    rw [ih (s + (a.hi - a.lo + 1)), ih (0 + (a.hi - a.lo + 1)), List.map_map]
    congr 1
    · omega
    · congr 1
      funext x
      simp only [Function.comp_apply]
      omega

theorem binarySearchInt_le_length (xs : List Int) (t : Int) :
    (binarySearchInt xs t).1 ≤ xs.length := by
  induction xs with
  | nil => simp [binarySearchInt]
  | cons a rest ih =>
    rw [binarySearchInt]
    split
    · simpa using ih
    · simp

theorem binarySearchInt_found_lt (xs : List Int) (t : Int)
    (h : (binarySearchInt xs t).2 = true) :
    (binarySearchInt xs t).1 < xs.length := by
  induction xs with
  | nil => simp [binarySearchInt] at h
  | cons a rest ih =>
    rw [binarySearchInt] at h ⊢
    by_cases hc : a < t
    · rw [if_pos hc] at h ⊢
      simp only at h ⊢
      simpa using Nat.succ_lt_succ (ih h)
    · rw [if_neg hc]
      simp

theorem binarySearchInt_shift (xs : List Int) (c t : Int) :
    binarySearchInt (xs.map (fun x => c + x)) t = binarySearchInt xs (t - c) := by
  induction xs with
  | nil => simp [binarySearchInt]
  | cons a rest ih =>
    simp only [List.map_cons]
    rw [binarySearchInt, binarySearchInt]
    by_cases h1 : c + a < t
    · rw [if_pos h1, if_pos (by omega), ih]
    · rw [if_neg h1, if_neg (by omega)]
      congr 1
      by_cases h2 : a = t - c
      · simp [h2]
      · simp only [decide_eq_decide]
        omega

theorem getD_map_add (c : Int) (xs : List Int) (n : Nat) (hn : n < xs.length) :
    (xs.map (fun x => c + x)).getD n 0 = c + xs.getD n 0 := by
  rw [List.getD_eq_getD_get?, List.getD_eq_getD_get?, List.get?_eq_getElem?,
    List.get?_eq_getElem?, List.getElem?_map, List.getElem?_eq_getElem hn]
  rfl

theorem mkPicker_size (l : List Range) : (mkPicker l).size = totalSize l := rfl

theorem mkPicker_cum (l : List Range) :
    (mkPicker l).cumSizes = cumSizesFrom 0 l := rfl

theorem mkPicker_ranges (l : List Range) : (mkPicker l).ranges = l := rfl

theorem cumSizes_cons (a : Range) (rest : List Range) :
    cumSizesFrom 0 (a :: rest) =
      (a.hi - a.lo + 1) ::
        (cumSizesFrom 0 rest).map (fun x => (a.hi - a.lo + 1) + x) := by
  rw [cumSizesFrom, zero_add, cumSizesFrom_shift]

/-- `Get` on the head interval. -/
theorem pickerGet_head (a : Range) (rest : List Range) (ho : Ordered (a :: rest))
    (i : Int) (h0 : 0 ≤ i) (hiv : i < a.hi - a.lo + 1) :
    pickerGet (mkPicker (a :: rest)) i = some (a.lo + i) := by
  have htsr : 0 ≤ totalSize rest := totalSize_nonneg rest (ordered_tail a _ ho)
  have hts := totalSize_cons a rest
  have hbs : binarySearchInt (cumSizesFrom 0 (a :: rest)) i = (0, false) := by
    rw [cumSizes_cons, binarySearchInt, if_neg (by omega)]
    rw [Prod.mk.injEq]
    refine ⟨rfl, ?_⟩
    rw [decide_eq_false_iff_not]
    omega
  have hridx : getRidx (cumSizesFrom 0 (a :: rest)) i = 0 := by
    rw [getRidx, hbs]
    simp
  rw [pickerGet, mkPicker_size, mkPicker_cum, mkPicker_ranges,
    if_neg (by omega), hridx, getOffset, hridx]
  simp [List.getD_cons_zero]

/-- `Get` recursion: an index at or past the head interval's size is served
by the tail picker. -/
theorem pickerGet_tail (a : Range) (rest : List Range) (ho : Ordered (a :: rest))
    (i : Int) (hge : a.hi - a.lo + 1 ≤ i) (hlt : i < totalSize (a :: rest)) :
    pickerGet (mkPicker (a :: rest)) i =
      pickerGet (mkPicker rest) (i - (a.hi - a.lo + 1)) := by
  have hsz : 1 ≤ a.hi - a.lo + 1 := by
    have := ho.1 a (List.mem_cons_self _ _)
    omega
  have hts := totalSize_cons a rest
  have htsr : 0 ≤ totalSize rest := totalSize_nonneg rest (ordered_tail a _ ho)
  by_cases heq : i = a.hi - a.lo + 1
  · -- exact hit on the head's cumulative size: found at position 0
    have hbs : binarySearchInt (cumSizesFrom 0 (a :: rest)) i = (0, true) := by
      rw [cumSizes_cons, binarySearchInt, if_neg (by omega)]
      rw [Prod.mk.injEq]
      refine ⟨rfl, ?_⟩
      rw [decide_eq_true_eq]
      omega
    have hridx : getRidx (cumSizesFrom 0 (a :: rest)) i = 1 := by
      rw [getRidx, hbs]
      simp
    have hoff : getOffset (cumSizesFrom 0 (a :: rest)) i = 0 := by
      rw [getOffset, hridx, cumSizes_cons, if_pos Nat.zero_lt_one]
      simp only [Nat.sub_self, List.getD_cons_zero]
      omega
    -- the right-hand side at index 0
    have hrest : rest ≠ [] := by
      intro hr
      subst hr
      rw [totalSize_cons] at hlt
      simp only [totalSize, List.foldl_nil] at hlt
      omega
    obtain ⟨b, rest', rfl⟩ := List.exists_cons_of_ne_nil hrest
    have hszb : 1 ≤ b.hi - b.lo + 1 := by
      have := (ordered_tail a _ ho).1 b (List.mem_cons_self _ _)
      omega
    have hR := pickerGet_head b rest' (ordered_tail a _ ho)
      (i - (a.hi - a.lo + 1)) (by omega) (by omega)
    rw [hR]
    rw [pickerGet, mkPicker_size, mkPicker_cum, mkPicker_ranges,
      if_neg (by omega), hridx, hoff]
    simp only [List.getD_cons_succ, List.getD_cons_zero]
    congr 1
    omega
  · -- strictly past: the search walks into the shifted tail
    have hgt : a.hi - a.lo + 1 < i := by omega
    have hbsL : binarySearchInt (cumSizesFrom 0 (a :: rest)) i =
        ((binarySearchInt (cumSizesFrom 0 rest) (i - (a.hi - a.lo + 1))).1 + 1,
         (binarySearchInt (cumSizesFrom 0 rest) (i - (a.hi - a.lo + 1))).2) := by
      rw [cumSizes_cons, binarySearchInt, if_pos (by omega),
        binarySearchInt_shift]
    have hle := binarySearchInt_le_length (cumSizesFrom 0 rest)
      (i - (a.hi - a.lo + 1))
    rw [pickerGet, pickerGet, mkPicker_size, mkPicker_size, mkPicker_cum,
      mkPicker_cum, mkPicker_ranges, mkPicker_ranges,
      if_neg (by omega), if_neg (by omega)]
    have hridxL : getRidx (cumSizesFrom 0 (a :: rest)) i =
        getRidx (cumSizesFrom 0 rest) (i - (a.hi - a.lo + 1)) + 1 := by
      rw [getRidx, getRidx, hbsL]
      split <;> rfl
    have hoffeq : getOffset (cumSizesFrom 0 (a :: rest)) i =
        getOffset (cumSizesFrom 0 rest) (i - (a.hi - a.lo + 1)) := by
      rw [getOffset, getOffset, hridxL]
      rw [if_pos (Nat.succ_pos _), Nat.add_sub_cancel]
      by_cases hz : 0 < getRidx (cumSizesFrom 0 rest) (i - (a.hi - a.lo + 1))
      · rw [if_pos hz]
        have hub : getRidx (cumSizesFrom 0 rest) (i - (a.hi - a.lo + 1)) ≤
            (cumSizesFrom 0 rest).length := by
          rw [getRidx]
          split
          · have := binarySearchInt_found_lt (cumSizesFrom 0 rest)
              (i - (a.hi - a.lo + 1)) (by assumption)
            omega
          · exact hle
        obtain ⟨m, hm⟩ : ∃ m,
            getRidx (cumSizesFrom 0 rest) (i - (a.hi - a.lo + 1)) = m + 1 :=
          ⟨getRidx (cumSizesFrom 0 rest) (i - (a.hi - a.lo + 1)) - 1, by omega⟩
        rw [hm, cumSizes_cons, List.getD_cons_succ, Nat.add_sub_cancel,
          getD_map_add _ _ m (by omega)]
        omega
      · rw [if_neg hz]
        have hz0 : getRidx (cumSizesFrom 0 rest) (i - (a.hi - a.lo + 1)) = 0 := by
          omega
        rw [hz0, cumSizes_cons, List.getD_cons_zero]
    rw [hridxL, List.getD_cons_succ, hoffeq]

/-- `Get` is the `i`-th–member function. -/
theorem pickerGet_eq_getMem (l : List Range) (ho : Ordered l) (i : Int)
    (h0 : 0 ≤ i) (hlt : i < totalSize l) :
    pickerGet (mkPicker l) i = some (getMem l i) := by
  induction l generalizing i with
  | nil =>
    simp only [totalSize, List.foldl_nil] at hlt
    omega
  | cons a rest ih =>
    by_cases hhead : i < a.hi - a.lo + 1
    · rw [pickerGet_head a rest ho i h0 hhead, getMem, if_pos hhead]
    · rw [pickerGet_tail a rest ho i (by omega) hlt, getMem, if_neg hhead]
      rw [totalSize_cons] at hlt
      exact ih (ordered_tail a _ ho) (i - (a.hi - a.lo + 1)) (by omega)
        (by omega)

theorem member_head_le (x : Range) (m : List Range) (ho : Ordered (x :: m))
    (r : Int) (hm : memberOf (x :: m) r) : x.lo ≤ r := by
  obtain ⟨a, ha, h1, h2⟩ := hm
  rw [List.mem_cons] at ha
  rcases ha with rfl | ha
  · exact h1
  · have h3 := (List.pairwise_cons.mp ho.2).1 a ha
    have h4 := ho.1 x (List.mem_cons_self _ _)
    omega

theorem getMem_member (l : List Range) (ho : Ordered l) (i : Int)
    (h0 : 0 ≤ i) (hlt : i < totalSize l) : memberOf l (getMem l i) := by
  induction l generalizing i with
  | nil =>
    simp only [totalSize, List.foldl_nil] at hlt
    omega
  | cons a rest ih =>
    rw [getMem]
    by_cases hhead : i < a.hi - a.lo + 1
    · rw [if_pos hhead, memberOf_cons]
      left
      omega
    · rw [if_neg hhead, memberOf_cons]
      right
      rw [totalSize_cons] at hlt
      exact ih (ordered_tail a _ ho) _ (by omega) (by omega)

theorem getMem_strictMono (l : List Range) (ho : Ordered l) (i j : Int)
    (h0 : 0 ≤ i) (hij : i < j) (hlt : j < totalSize l) :
    getMem l i < getMem l j := by
  induction l generalizing i j with
  | nil =>
    simp only [totalSize, List.foldl_nil] at hlt
    omega
  | cons a rest ih =>
    rw [getMem, getMem]
    by_cases hi : i < a.hi - a.lo + 1
    · rw [if_pos hi]
      by_cases hj : j < a.hi - a.lo + 1
      · rw [if_pos hj]
        omega
      · rw [if_neg hj]
        rw [totalSize_cons] at hlt
        have hmem := getMem_member rest (ordered_tail a _ ho)
          (j - (a.hi - a.lo + 1)) (by omega) (by omega)
        rcases rest with _ | ⟨b, rest'⟩
        · simp only [totalSize, List.foldl_nil] at hlt
          omega
        · have hlow := member_head_le b rest' (ordered_tail a _ ho) _ hmem
          have hab := (List.pairwise_cons.mp ho.2).1 b (List.mem_cons_self _ _)
          omega
    · rw [if_neg hi, if_neg (by omega)]
      rw [totalSize_cons] at hlt
      exact ih (ordered_tail a _ ho) _ _ (by omega) (by omega) (by omega)

theorem getMem_surjective (l : List Range) (ho : Ordered l) (r : Int)
    (hm : memberOf l r) :
    ∃ i : Int, 0 ≤ i ∧ i < totalSize l ∧ getMem l i = r := by
  induction l with
  | nil => obtain ⟨a, ha, _⟩ := hm; cases ha
  | cons a rest ih =>
    rw [memberOf_cons] at hm
    have htsr : 0 ≤ totalSize rest := totalSize_nonneg rest (ordered_tail a _ ho)
    rcases hm with ⟨h1, h2⟩ | hm
    · refine ⟨r - a.lo, by omega, ?_, ?_⟩
      · rw [totalSize_cons]
        omega
      · rw [getMem, if_pos (by omega)]
        omega
    · obtain ⟨i, hi0, hilt, hieq⟩ := ih (ordered_tail a _ ho) hm
      have hsz : 1 ≤ a.hi - a.lo + 1 := by
        have := ho.1 a (List.mem_cons_self _ _)
        omega
      refine ⟨(a.hi - a.lo + 1) + i, by omega, ?_, ?_⟩
      · rw [totalSize_cons]
        omega
      · rw [getMem, if_neg (by omega)]
        rw [show (a.hi - a.lo + 1) + i - (a.hi - a.lo + 1) = i by omega]
        exact hieq

/-! ## UTF-8: the Go decoder against the standard encoding -/

theorem utf8Encode_one (r : Nat) (h : r < 0x80) : utf8Encode r = [r] := by
  rw [utf8Encode, if_pos h]

theorem utf8Encode_two (r : Nat) (h1 : 0x80 ≤ r) (h2 : r < 0x800) :
    utf8Encode r = [0xC0 + r / 64, 0x80 + r % 64] := by
  rw [utf8Encode, if_neg (by omega), if_pos h2]

theorem utf8Encode_three (r : Nat) (h1 : 0x800 ≤ r) (h2 : r < 0x10000) :
    utf8Encode r = [0xE0 + r / 4096, 0x80 + (r / 64) % 64, 0x80 + r % 64] := by
  rw [utf8Encode, if_neg (by omega), if_neg (by omega), if_pos h2]

theorem utf8Encode_four (r : Nat) (h1 : 0x10000 ≤ r) :
    utf8Encode r =
      [0xF0 + r / 262144, 0x80 + (r / 4096) % 64, 0x80 + (r / 64) % 64,
        0x80 + r % 64] := by
  rw [utf8Encode, if_neg (by omega), if_neg (by omega), if_neg (by omega)]

/-- Soundness of Go's `DecodeRuneInString`: on a nonempty input it either
reports the one-byte error result `(U+FFFD, 1)`, or it consumed exactly the
standard UTF-8 encoding of a Unicode scalar value lying at the front of the
input. -/
theorem decodeRune_sound (b0 : Nat) (rest : List Nat) :
    (decodeRune (b0 :: rest) = (0xFFFD, 1)) ∨
    (∃ r : Nat, IsScalar r ∧ (∃ t, utf8Encode r ++ t = b0 :: rest) ∧
      decodeRune (b0 :: rest) = ((r : Int), (utf8Encode r).length)) := by
  by_cases h1 : b0 < 0x80
  · right
    refine ⟨b0, Or.inl (by omega), ⟨rest, by rw [utf8Encode_one b0 h1]; rfl⟩, ?_⟩
    rw [utf8Encode_one b0 h1]
    simp only [decodeRune]
    rw [if_pos h1]
    rfl
  by_cases h2 : b0 < 0xC2
  · left
    simp only [decodeRune]
    rw [if_neg h1, if_pos h2]
  by_cases h3 : b0 ≤ 0xDF
  · rcases rest with _ | ⟨b1, rest2⟩
    · left
      simp only [decodeRune]
      rw [if_neg h1, if_neg h2, if_pos h3]
    by_cases hb1 : 0x80 ≤ b1 ∧ b1 ≤ 0xBF
    · right
      refine ⟨(b0 - 0xC0) * 64 + (b1 - 0x80), Or.inl (by omega), ?_, ?_⟩
      · refine ⟨rest2, ?_⟩
        rw [utf8Encode_two _ (by omega) (by omega)]
        simp only [List.cons_append, List.nil_append, List.cons.injEq,
          eq_self_iff_true, and_true]
        omega
      · rw [utf8Encode_two _ (by omega) (by omega)]
        simp only [decodeRune]
        rw [if_neg h1, if_neg h2, if_pos h3, if_pos hb1]
        rfl
    · left
      simp only [decodeRune]
      rw [if_neg h1, if_neg h2, if_pos h3, if_neg hb1]
  by_cases h4 : b0 ≤ 0xEF
  · rcases rest with _ | ⟨b1, rest2⟩
    · left
      simp only [decodeRune]
      rw [if_neg h1, if_neg h2, if_neg h3, if_pos h4]
    by_cases hb1 : (if b0 = 0xE0 then 0xA0 else 0x80) ≤ b1 ∧
        b1 ≤ (if b0 = 0xED then 0x9F else 0xBF)
    · rcases rest2 with _ | ⟨b2, rest3⟩
      · left
        simp only [decodeRune]
        rw [if_neg h1, if_neg h2, if_neg h3, if_pos h4, if_pos hb1]
      by_cases hb2 : 0x80 ≤ b2 ∧ b2 ≤ 0xBF
      · right
        have hb1x : 0x80 ≤ b1 ∧ b1 ≤ 0xBF := by
          rcases hb1 with ⟨ha, hb⟩
          split at ha <;> split at hb <;> omega
        have hrange : 0x800 ≤ (b0 - 0xE0) * 4096 + (b1 - 0x80) * 64 + (b2 - 0x80) ∧
            (b0 - 0xE0) * 4096 + (b1 - 0x80) * 64 + (b2 - 0x80) < 0x10000 := by
          constructor
          · by_cases he0 : b0 = 0xE0
            · rw [if_pos he0] at hb1
              omega
            · omega
          · omega
        have hscal : IsScalar ((b0 - 0xE0) * 4096 + (b1 - 0x80) * 64 + (b2 - 0x80)) := by
          by_cases hed : b0 = 0xED
          · rw [if_pos hed] at hb1
            left
            omega
          · by_cases hlow : b0 ≤ 0xEC
            · left
              omega
            · right
              refine ⟨by omega, by omega⟩
        refine ⟨(b0 - 0xE0) * 4096 + (b1 - 0x80) * 64 + (b2 - 0x80), hscal, ?_, ?_⟩
        · refine ⟨rest3, ?_⟩
          rw [utf8Encode_three _ hrange.1 hrange.2]
          simp only [List.cons_append, List.nil_append, List.cons.injEq,
            eq_self_iff_true, and_true]
          omega
        · rw [utf8Encode_three _ hrange.1 hrange.2]
          simp only [decodeRune]
          rw [if_neg h1, if_neg h2, if_neg h3, if_pos h4, if_pos hb1, if_pos hb2]
          rfl
      · left
        simp only [decodeRune]
        rw [if_neg h1, if_neg h2, if_neg h3, if_pos h4, if_pos hb1, if_neg hb2]
    · left
      simp only [decodeRune]
      rw [if_neg h1, if_neg h2, if_neg h3, if_pos h4, if_neg hb1]
  by_cases h5 : b0 ≤ 0xF4
  · rcases rest with _ | ⟨b1, rest2⟩
    · left
      simp only [decodeRune]
      rw [if_neg h1, if_neg h2, if_neg h3, if_neg h4, if_pos h5]
    by_cases hb1 : (if b0 = 0xF0 then 0x90 else 0x80) ≤ b1 ∧
        b1 ≤ (if b0 = 0xF4 then 0x8F else 0xBF)
    · rcases rest2 with _ | ⟨b2, rest3⟩
      · left
        simp only [decodeRune]
        rw [if_neg h1, if_neg h2, if_neg h3, if_neg h4, if_pos h5, if_pos hb1]
      by_cases hb2 : 0x80 ≤ b2 ∧ b2 ≤ 0xBF
      · rcases rest3 with _ | ⟨b3, rest4⟩
        · left
          simp only [decodeRune]
          rw [if_neg h1, if_neg h2, if_neg h3, if_neg h4, if_pos h5, if_pos hb1,
            if_pos hb2]
        by_cases hb3 : 0x80 ≤ b3 ∧ b3 ≤ 0xBF
        · right
          have hb1x : 0x80 ≤ b1 ∧ b1 ≤ 0xBF := by
            rcases hb1 with ⟨ha, hb⟩
            split at ha <;> split at hb <;> omega
          have hrange : 0x10000 ≤ (b0 - 0xF0) * 262144 + (b1 - 0x80) * 4096 +
                (b2 - 0x80) * 64 + (b3 - 0x80) ∧
              (b0 - 0xF0) * 262144 + (b1 - 0x80) * 4096 +
                (b2 - 0x80) * 64 + (b3 - 0x80) ≤ 0x10FFFF := by
            constructor
            · by_cases hf0 : b0 = 0xF0
              · rw [if_pos hf0] at hb1
                omega
              · omega
            · by_cases hf4 : b0 = 0xF4
              · rcases hb1 with ⟨ha, hb⟩
                rw [if_pos hf4] at hb
                omega
              · omega
          refine ⟨(b0 - 0xF0) * 262144 + (b1 - 0x80) * 4096 +
              (b2 - 0x80) * 64 + (b3 - 0x80),
            Or.inr ⟨by omega, hrange.2⟩, ?_, ?_⟩
          · refine ⟨rest4, ?_⟩
            rw [utf8Encode_four _ hrange.1]
            simp only [List.cons_append, List.nil_append, List.cons.injEq,
              eq_self_iff_true, and_true]
            omega
          · rw [utf8Encode_four _ hrange.1]
            simp only [decodeRune]
            rw [if_neg h1, if_neg h2, if_neg h3, if_neg h4, if_pos h5, if_pos hb1,
              if_pos hb2, if_pos hb3]
            rfl
        · left
          simp only [decodeRune]
          rw [if_neg h1, if_neg h2, if_neg h3, if_neg h4, if_pos h5, if_pos hb1,
            if_pos hb2, if_neg hb3]
      · left
        simp only [decodeRune]
        rw [if_neg h1, if_neg h2, if_neg h3, if_neg h4, if_pos h5, if_pos hb1,
          if_neg hb2]
    · left
      simp only [decodeRune]
      rw [if_neg h1, if_neg h2, if_neg h3, if_neg h4, if_pos h5, if_neg hb1]
  · left
    simp only [decodeRune]
    rw [if_neg h1, if_neg h2, if_neg h3, if_neg h4, if_neg h5]

/-! ## One-step behaviour of the `Parse` loop -/

/-- `decodeChar` on a non-backslash byte is plain UTF-8 decoding and never
fails. -/
theorem decodeChar_not_backslash (b0 : Nat) (rest : List Nat) (h : b0 ≠ 92) :
    decodeChar (b0 :: rest) =
      .ok ((decodeRune (b0 :: rest)).1, (decodeRune (b0 :: rest)).2) := by
  simp only [decodeChar]
  rw [if_pos h]

/-- A class escape (`\d \l \L \w \s \g \p`) is rejected by the
single-character decoder, so it can never become a range endpoint. -/
theorem decodeChar_class_escape (c : Nat) (rest : List Nat)
    (h : c = 100 ∨ c = 108 ∨ c = 76 ∨ c = 119 ∨ c = 115 ∨ c = 103 ∨ c = 112) :
    decodeChar (92 :: c :: rest) = .error (.invalid [92, c]) := by
  rcases h with rfl | rfl | rfl | rfl | rfl | rfl | rfl <;> rfl

/-- When `decodeCharClass` consumes a class, the loop continues after it with
the augmented set: the class is consumed before any range detection can look
at it. -/
theorem parseLoop_class_step (cats scripts : TableEnv) (set set1 : List Range)
    (b : Nat) (s' : List Nat) (n : Nat)
    (hcc : decodeCharClass cats scripts set (b :: s') = (set1, n, none))
    (hn : n ≠ 0) :
    parseLoop cats scripts set (b :: s') =
      parseLoop cats scripts set1 ((b :: s').drop n) := by
  conv_lhs => rw [parseLoop]
  simp only [hcc]
  rw [dif_pos hn]

/-- An error from `decodeCharClass` aborts the loop with the empty set. -/
theorem parseLoop_class_error (cats scripts : TableEnv) (set set1 : List Range)
    (b : Nat) (s' : List Nat) (n : Nat) (e : PErr)
    (hcc : decodeCharClass cats scripts set (b :: s') = (set1, n, some e)) :
    parseLoop cats scripts set (b :: s') = ([], some e) := by
  conv_lhs => rw [parseLoop]
  simp only [hcc]

/-- An error from the low-endpoint `decodeChar` aborts the loop with the
empty set. -/
theorem parseLoop_char_error (cats scripts : TableEnv) (set : List Range)
    (b : Nat) (s' : List Nat) (e : PErr)
    (hcc : decodeCharClass cats scripts set (b :: s') = (set, 0, none))
    (hd : decodeChar (b :: s') = .error e) :
    parseLoop cats scripts set (b :: s') = ([], some e) := by
  conv_lhs => rw [parseLoop]
  simp only [hcc]
  rw [dif_neg (by decide)]
  split
  · next e2 heq =>
    rw [hd] at heq
    injection heq with heq
    rw [heq]
  · next lo2 losize2 heq =>
    rw [hd] at heq
    exact Except.noConfusion heq

/-- The reached-range error case: a decodable range with `lo > hi` aborts
the loop with the bad-character-range error carrying the matched span. -/
theorem parseLoop_badRange (cats scripts : TableEnv) (set : List Range)
    (b : Nat) (s' : List Nat) (lo hi : Int) (losize hisize : Nat)
    (hcc : decodeCharClass cats scripts set (b :: s') = (set, 0, none))
    (hd : decodeChar (b :: s') = .ok (lo, losize))
    (hdash : (b :: s').get? losize = some 45)
    (he : decodeChar ((b :: s').drop (losize + 1)) = .ok (hi, hisize))
    (hgt : lo > hi) :
    parseLoop cats scripts set (b :: s') =
      ([], some (.badRange ((b :: s').take (losize + hisize + 1)))) := by
  conv_lhs => rw [parseLoop]
  simp only [hcc]
  rw [dif_neg (by decide)]
  split
  · next e2 heq =>
    rw [hd] at heq
    exact Except.noConfusion heq
  · next lo2 losize2 heq =>
    rw [hd] at heq
    injection heq with heq
    rw [Prod.mk.injEq] at heq
    obtain ⟨h1, h2⟩ := heq
    subst h1
    subst h2
    rw [if_pos hdash]
    split
    · next hi2 hisize2 heq3 =>
      rw [he] at heq3
      injection heq3 with heq3
      rw [Prod.mk.injEq] at heq3
      obtain ⟨h3, h4⟩ := heq3
      subst h3
      subst h4
      rw [if_pos hgt]
    · next e2 heq3 =>
      rw [he] at heq3
      exact Except.noConfusion heq3

/-- The documented fallback: when the low endpoint decodes, a `-` follows,
and the character after the `-` fails to decode, the inner failure is not
propagated — `lo` is added as a singleton and the loop resumes at the `-`. -/
theorem parseLoop_fallback (cats scripts : TableEnv) (set : List Range)
    (b : Nat) (s' : List Nat) (lo : Int) (losize : Nat) (e : PErr)
    (hcc : decodeCharClass cats scripts set (b :: s') = (set, 0, none))
    (hd : decodeChar (b :: s') = .ok (lo, losize))
    (hdash : (b :: s').get? losize = some 45)
    (he : decodeChar ((b :: s').drop (losize + 1)) = .error e) :
    parseLoop cats scripts set (b :: s') =
      parseLoop cats scripts (add set lo) ((b :: s').drop losize) := by
  conv_lhs => rw [parseLoop]
  simp only [hcc]
  rw [dif_neg (by decide)]
  split
  · next e2 heq =>
    rw [hd] at heq
    exact Except.noConfusion heq
  · next lo2 losize2 heq =>
    rw [hd] at heq
    injection heq with heq
    rw [Prod.mk.injEq] at heq
    obtain ⟨h1, h2⟩ := heq
    subst h1
    subst h2
    rw [if_pos hdash]
    split
    · next hi2 hisize2 heq3 =>
      rw [he] at heq3
      exact Except.noConfusion heq3
    · next e2 heq3 =>
      rfl

theorem mergeRuns_eq_mergeInto (l : List Range) :
    mergeRuns l = match l with
      | [] => []
      | a :: rest => mergeInto a rest := by
  induction l using mergeRuns.induct with
  | case1 => rw [mergeRuns]
  | case2 a => rw [mergeRuns]; simp only [mergeInto]
  | case3 a b rest hif ih =>
    rw [mergeRuns, if_pos hif, ih]
    simp only [mergeInto]
    rw [if_pos hif]
  | case4 a b rest hif ih =>
    rw [mergeRuns, if_neg hif, ih]
    simp only [mergeInto]
    rw [if_neg hif]

/-- Exhausted input ends the loop with the accumulated set and no error. -/
theorem parseLoop_nil (cats scripts : TableEnv) (set : List Range) :
    parseLoop cats scripts set [] = (set, none) := by
  rw [parseLoop]

/-- The plain single-character step: no class, a decodable character, and no
dash after it — the character is added and the loop continues. -/
theorem parseLoop_add_step (cats scripts : TableEnv) (set : List Range)
    (b : Nat) (s' : List Nat) (lo : Int) (losize : Nat)
    (hcc : decodeCharClass cats scripts set (b :: s') = (set, 0, none))
    (hd : decodeChar (b :: s') = .ok (lo, losize))
    (hdash : ¬((b :: s').get? losize = some 45)) :
    parseLoop cats scripts set (b :: s') =
      parseLoop cats scripts (add set lo) ((b :: s').drop losize) := by
  conv_lhs => rw [parseLoop]
  simp only [hcc]
  rw [dif_neg (by decide)]
  split
  · next e2 heq =>
    rw [hd] at heq
    exact Except.noConfusion heq
  · next lo2 losize2 heq =>
    rw [hd] at heq
    injection heq with heq
    rw [Prod.mk.injEq] at heq
    obtain ⟨h1, h2⟩ := heq
    subst h1
    subst h2
    rw [if_neg hdash]

/-- Assemble `Parse` from a completed loop. -/
theorem parse_of_loop_ok (cats scripts : TableEnv) (s : List Nat)
    (setF : List Range) (h : parseLoop cats scripts [] s = (setF, none)) :
    parse cats scripts s = (mergeAdjacents setF, none) := by
  unfold parse
  rw [h]

theorem parse_of_loop_err (cats scripts : TableEnv) (s : List Nat)
    (setF : List Range) (e : PErr)
    (h : parseLoop cats scripts [] s = (setF, some e)) :
    parse cats scripts s = ([], some e) := by
  unfold parse
  rw [h]

theorem decodeCharClass_not_backslash (cats scripts : TableEnv)
    (set : List Range) (b0 : Nat) (s' : List Nat) (h : b0 ≠ 92) :
    decodeCharClass cats scripts set (b0 :: s') = (set, 0, none) := by
  rcases s' with _ | ⟨c, srest⟩
  · rfl
  · simp only [decodeCharClass]
    rw [if_pos h]

/-- The loop never fails on input made only of non-ASCII bytes: every such
byte (well-formed UTF-8 or not) decodes to some rune and is added. -/
theorem parseLoop_highbytes_aux (cats scripts : TableEnv) (L : Nat) :
    ∀ (set : List Range) (s : List Nat), s.length ≤ L →
      (∀ b ∈ s, 0x80 ≤ b) →
      ∃ setF, parseLoop cats scripts set s = (setF, none) := by
  induction L with
  | zero =>
    intro set s hlen _
    have hnil : s = [] := List.eq_nil_of_length_eq_zero (by omega)
    subst hnil
    exact ⟨set, parseLoop_nil cats scripts set⟩
  | succ L ih =>
    intro set s hlen h
    rcases s with _ | ⟨b0, s'⟩
    · exact ⟨set, parseLoop_nil cats scripts set⟩
    · have hb0 : 0x80 ≤ b0 := h b0 (List.mem_cons_self _ _)
      have hne : b0 ≠ 92 := by omega
      have hcc := decodeCharClass_not_backslash cats scripts set b0 s' hne
      have hd := decodeChar_not_backslash b0 s' hne
      have hpos : 1 ≤ (decodeRune (b0 :: s')).2 := decodeRune_size_pos b0 s'
      have hdash : ¬((b0 :: s').get? (decodeRune (b0 :: s')).2 = some 45) := by
        intro hsome
        have hmem : (45 : Nat) ∈ (b0 :: s') := List.get?_mem hsome
        have := h 45 hmem
        omega
      rw [parseLoop_add_step cats scripts set b0 s' _ _ hcc hd hdash]
      refine ih (add set (decodeRune (b0 :: s')).1) _ ?_ ?_
      · simp only [List.length_drop, List.length_cons] at hlen ⊢
        omega
      · intro b hb
        exact h b (List.mem_of_mem_drop hb)

theorem parseLoop_highbytes (cats scripts : TableEnv) (set : List Range)
    (s : List Nat) (h : ∀ b ∈ s, 0x80 ≤ b) :
    ∃ setF, parseLoop cats scripts set s = (setF, none) :=
  parseLoop_highbytes_aux cats scripts s.length set s (le_refl _) h

/-- `Parse` never fails on input made only of non-ASCII bytes. -/
theorem parse_highbytes (cats scripts : TableEnv) (s : List Nat)
    (h : ∀ b ∈ s, 0x80 ≤ b) :
    ∃ setF, parse cats scripts s = (setF, none) := by
  obtain ⟨setF, hp⟩ := parseLoop_highbytes cats scripts [] s h
  exact ⟨mergeAdjacents setF, parse_of_loop_ok _ _ _ _ hp⟩

/-- On every error `Parse` returns the empty set (`RuneSet{}`): there is no
partial result. -/
theorem parse_error_empty (cats scripts : TableEnv) (s : List Nat)
    (res : List Range) (e : PErr)
    (h : parse cats scripts s = (res, some e)) : res = [] := by
  unfold parse at h
  split at h
  · rw [Prod.mk.injEq] at h
    exact absurd h.2 (by simp)
  · rw [Prod.mk.injEq] at h
    rw [← h.1]

end Runeset

namespace Runeset

/-- The successful-range step of the loop: a decodable low endpoint, a `-`,
a decodable high endpoint and `lo ≤ hi` add the whole range and continue
after it. -/
theorem parseLoop_range_step (cats scripts : TableEnv) (set : List Range)
    (b : Nat) (s' : List Nat) (lo hi : Int) (losize hisize : Nat)
    (hcc : decodeCharClass cats scripts set (b :: s') = (set, 0, none))
    (hd : decodeChar (b :: s') = .ok (lo, losize))
    (hdash : (b :: s').get? losize = some 45)
    (he : decodeChar ((b :: s').drop (losize + 1)) = .ok (hi, hisize))
    (hle : ¬ lo > hi) :
    parseLoop cats scripts set (b :: s') =
      parseLoop cats scripts (addRangeF set lo hi)
        ((b :: s').drop (losize + hisize + 1)) := by
  conv_lhs => rw [parseLoop]
  simp only [hcc]
  rw [dif_neg (by decide)]
  split
  · next e2 heq =>
    rw [hd] at heq
    exact Except.noConfusion heq
  · next lo2 losize2 heq =>
    rw [hd] at heq
    injection heq with heq
    rw [Prod.mk.injEq] at heq
    obtain ⟨h1, h2⟩ := heq
    subst h1
    subst h2
    rw [if_pos hdash]
    split
    · next hi2 hisize2 heq3 =>
      rw [he] at heq3
      injection heq3 with heq3
      rw [Prod.mk.injEq] at heq3
      obtain ⟨h3, h4⟩ := heq3
      subst h3
      subst h4
      rw [if_neg hle]
    · next e2 heq3 =>
      rw [he] at heq3
      exact Except.noConfusion heq3

/-- C9: the precondition violations are unconditional faults, distinct from
the parse-error path: `AddRange` panics exactly when `lo > hi`, `Get` panics
on every index outside `[0, Size())`, and `Random` on a zero-size picker
panics inside `crypto/rand.Int` instead of returning a value (`none` models
the panic in each case). -/
theorem claim_C9 :
    (∀ (l : List Range) (lo hi : Int), addRange l lo hi = none ↔ lo > hi) ∧
    (∀ (p : Picker) (i : Int), i < 0 ∨ p.size ≤ i → pickerGet p i = none) ∧
    (∀ (p : Picker) (draw : Int), p.size ≤ 0 → randomWith p draw = none) := by
  refine ⟨fun l lo hi => ?_, fun p i h => ?_, fun p draw h => ?_⟩
  · unfold addRange
    split_ifs with hgt
    · simp [hgt]
    · simp [hgt]
  · unfold pickerGet
    rw [if_pos h]
  · unfold randomWith
    rw [if_pos h]

theorem claim_C9_witness :
    addRange [] 5 3 = none ∧
    pickerGet (mkPicker [⟨1, 2⟩]) 2 = none ∧
    randomWith (mkPicker []) 0 = none :=
  ⟨(claim_C9.1 [] 5 3).mpr (by decide),
   claim_C9.2.1 (mkPicker [⟨1, 2⟩]) 2 (Or.inr (by decide)),
   claim_C9.2.2 (mkPicker []) 0 (by decide)⟩

/-- C6: on an ordered set, `Add(v)` is a no-op when some interval already
contains `v`; otherwise it inserts exactly the singleton `[v, v]` at its
sorted position, leaving every other interval untouched — in particular it
never merges with a numerically adjacent neighbour. -/
theorem claim_C6 (l : List Range) (v : Int) (ho : Ordered l) :
    (memberOf l v → add l v = l) ∧
    (¬ memberOf l v →
      ∃ pre suf, l = pre ++ suf ∧ add l v = pre ++ ⟨v, v⟩ :: suf ∧
        (∀ a ∈ pre, a.hi < v) ∧ (∀ b ∈ suf, v < b.lo)) :=
  add_spec l v ho

theorem claim_C6_witness :
    add [⟨1, 2⟩] 2 = [⟨1, 2⟩] ∧ add [⟨5, 6⟩] 7 = [⟨5, 6⟩, ⟨7, 7⟩] :=
  ⟨(claim_C6 [⟨1, 2⟩] 2 (by decide)).1 (by decide), by decide⟩

/-- C5: on an ordered set, `MergeAdjacents` preserves membership, leaves no
two neighbouring intervals numerically touching (every gap is at least one
code point), is idempotent, and is the identity on a set with no touching
neighbours. -/
theorem claim_C5 (l : List Range) (ho : Ordered l) :
    (∀ r : Int, memberOf (mergeAdjacents l) r ↔ memberOf l r) ∧
    (mergeAdjacents l).Chain' (fun a b => a.hi + 1 < b.lo) ∧
    mergeAdjacents (mergeAdjacents l) = mergeAdjacents l ∧
    (l.Chain' (fun a b => a.hi + 1 ≠ b.lo) → mergeAdjacents l = l) := by
  have hme := mergeAdjacents_eq l
  rw [hme, mergeAdjacents_eq (mergeRuns l)]
  exact ⟨fun r => mergeRuns_member l ho r, mergeRuns_gap l ho,
    mergeRuns_idem l ho, fun hch => mergeRuns_noop l hch⟩

theorem claim_C5_witness :
    mergeAdjacents (mergeAdjacents [⟨1, 2⟩, ⟨3, 4⟩, ⟨6, 6⟩]) =
      mergeAdjacents [⟨1, 2⟩, ⟨3, 4⟩, ⟨6, 6⟩] ∧
    memberOf (mergeAdjacents [⟨1, 2⟩, ⟨3, 4⟩, ⟨6, 6⟩]) 3 := by
  have h := claim_C5 [⟨1, 2⟩, ⟨3, 4⟩, ⟨6, 6⟩] (by decide)
  exact ⟨h.2.2.1, (h.1 3).mpr (by decide)⟩

/-- C4: every interval list reachable from the empty set by a finite
sequence of `Add`, `AddRange` and `AddRangeTable` calls (`AddRange` panics
are ruled out by the success hypothesis) has `lo ≤ hi` in every interval, is
strictly sorted by `lo`, and is pairwise non-overlapping. -/
theorem claim_C4 (ops : List Op) (l' : List Range)
    (h : runOps [] ops = some l') :
    (∀ a ∈ l', a.lo ≤ a.hi) ∧
    l'.Pairwise (fun a b => a.lo < b.lo) ∧
    l'.Pairwise (fun a b => a.hi < b.lo) := by
  have ho : Ordered l' := runOps_ordered ops [] l'
    ⟨fun a ha => absurd ha (List.not_mem_nil a), List.Pairwise.nil⟩ h
  refine ⟨ho.1, List.Pairwise.imp_of_mem ?_ ho.2, ho.2⟩
  intro a b ha hb hr
  have := ho.1 a ha
  omega

theorem claim_C4_witness :
    ([⟨1, 3⟩, ⟨5, 5⟩, ⟨10, 10⟩] : List Range).Pairwise
      (fun a b => a.lo < b.lo) :=
  (claim_C4 [.addOp 5, .addRangeOp 1 3, .addOp 10]
    [⟨1, 3⟩, ⟨5, 5⟩, ⟨10, 10⟩] rfl).2.1

end Runeset

namespace Runeset

/-- C2: on an ordered set with `lo ≤ hi`, `AddRange(lo, hi)` succeeds and
computes exactly the union of the old membership with `[lo, hi]`: the
contiguous run of intervals intersecting `[lo, hi]` is replaced by one
merged interval whose bounds extend to the bounds of the intervals
containing `lo` resp. `hi` (and are `lo` resp. `hi` when no interval
contains them), while the intervals before and after the span — even ones
numerically adjacent to the new bounds — are left exactly as they were. -/
theorem claim_C2 (l : List Range) (lo hi : Int) (ho : Ordered l)
    (hlh : lo ≤ hi) :
    ∃ l', addRange l lo hi = some l' ∧
      (∀ r : Int, memberOf l' r ↔ memberOf l r ∨ (lo ≤ r ∧ r ≤ hi)) ∧
      ∃ pre mid suf lo' hi',
        l = pre ++ mid ++ suf ∧
        l' = pre ++ ⟨lo', hi'⟩ :: suf ∧
        lo' ≤ lo ∧ hi ≤ hi' ∧
        (∀ a ∈ pre, a.hi < lo) ∧ (∀ b ∈ suf, hi < b.lo) ∧
        (∀ a ∈ mid, lo ≤ a.hi ∧ a.lo ≤ hi) ∧
        (∀ a ∈ l, a.lo ≤ lo → lo ≤ a.hi → lo' = a.lo) ∧
        ((∀ a ∈ l, ¬(a.lo ≤ lo ∧ lo ≤ a.hi)) → lo' = lo) ∧
        (∀ a ∈ l, a.lo ≤ hi → hi ≤ a.hi → hi' = a.hi) ∧
        ((∀ a ∈ l, ¬(a.lo ≤ hi ∧ hi ≤ a.hi)) → hi' = hi) := by
  have hadd : addRange l lo hi = some (addRangeF l lo hi) := by
    unfold addRange
    rw [if_neg (by omega)]
  refine ⟨addRangeF l lo hi, hadd, addRangeF_member l lo hi ho hlh, ?_⟩
  obtain ⟨pre, mid, suf, lo', hi', h1, h2, h3, h4, h5, _, h7, _, h9, _,
    h11, h12, h13, h14, _, _⟩ := addRangeF_spec l lo hi ho hlh
  exact ⟨pre, mid, suf, lo', hi', h1, h2, h3, h4, h5, h7, h9, h11, h12,
    h13, h14⟩

theorem claim_C2_witness :
    addRange [⟨1, 2⟩, ⟨10, 12⟩] 4 5 = some [⟨1, 2⟩, ⟨4, 5⟩, ⟨10, 12⟩] ∧
    memberOf [⟨1, 2⟩, ⟨4, 5⟩, ⟨10, 12⟩] 4 ∧
    ¬ memberOf [⟨1, 2⟩, ⟨4, 5⟩, ⟨10, 12⟩] 7 := by
  obtain ⟨l', h1, h2, _⟩ :=
    claim_C2 [⟨1, 2⟩, ⟨10, 12⟩] 4 5 (by decide) (by decide)
  have hl : l' = [⟨1, 2⟩, ⟨4, 5⟩, ⟨10, 12⟩] := by
    have h0 : addRange [⟨1, 2⟩, ⟨10, 12⟩] 4 5 =
        some [⟨1, 2⟩, ⟨4, 5⟩, ⟨10, 12⟩] := by decide
    rw [h0] at h1
    injection h1 with h1
    exact h1.symm
  subst hl
  refine ⟨h1, (h2 4).mpr (Or.inr (by decide)), fun hm => ?_⟩
  rcases (h2 7).mp hm with hm' | hm'
  · exact absurd hm' (by decide)
  · omega

/-- C3: for a picker built from an ordered set, `Size()` is the sum of
`hi - lo + 1` over the intervals, `Get` on `[0, Size())` agrees with the
reference enumeration of the members in ascending order and is strictly
increasing, lands in the member set, attains every member, and has the
global minimum at index `0` and the global maximum at index `Size() - 1`. -/
theorem claim_C3 (l : List Range) (ho : Ordered l) :
    (mkPicker l).size = (l.map (fun a => a.hi - a.lo + 1)).sum ∧
    (∀ i : Int, 0 ≤ i → i < (mkPicker l).size →
      pickerGet (mkPicker l) i = some (getMem l i)) ∧
    (∀ i : Int, 0 ≤ i → i < (mkPicker l).size → memberOf l (getMem l i)) ∧
    (∀ i j : Int, 0 ≤ i → i < j → j < (mkPicker l).size →
      getMem l i < getMem l j) ∧
    (∀ r : Int, memberOf l r →
      ∃ i : Int, 0 ≤ i ∧ i < (mkPicker l).size ∧ getMem l i = r) ∧
    (∀ r : Int, memberOf l r →
      getMem l 0 ≤ r ∧ r ≤ getMem l ((mkPicker l).size - 1)) := by
  rw [mkPicker_size]
  refine ⟨totalSize_eq_sum l,
    fun i h0 hlt => pickerGet_eq_getMem l ho i h0 hlt,
    fun i h0 hlt => getMem_member l ho i h0 hlt,
    fun i j h0 hij hlt => getMem_strictMono l ho i j h0 hij hlt,
    fun r hm => getMem_surjective l ho r hm, fun r hm => ?_⟩
  obtain ⟨i, h0, hlt, rfl⟩ := getMem_surjective l ho r hm
  constructor
  · rcases eq_or_lt_of_le h0 with heq | hlt0
    · exact le_of_eq (by rw [← heq])
    · exact le_of_lt (getMem_strictMono l ho 0 i (le_refl 0) hlt0 hlt)
  · rcases eq_or_lt_of_le (show i ≤ totalSize l - 1 by omega) with heq | hlt1
    · exact le_of_eq (by rw [heq])
    · exact le_of_lt
        (getMem_strictMono l ho i (totalSize l - 1) h0 hlt1 (by omega))

theorem claim_C3_witness :
    (mkPicker [⟨1, 2⟩, ⟨5, 5⟩]).size = 3 ∧
    pickerGet (mkPicker [⟨1, 2⟩, ⟨5, 5⟩]) 2 = some 5 := by
  have h := claim_C3 [⟨1, 2⟩, ⟨5, 5⟩] (by decide)
  refine ⟨by rw [h.1]; decide, ?_⟩
  rw [h.2.1 2 (by decide) (by decide)]
  decide

/-- C1 (counterexample to the spec's ownership sentence): the picker built
from `[1,2] [3,4] [6,6]` answers `Get(2) = 3`, but after the builder's
subsequent `MergeAdjacents()` — which rewrites the shared backing array in
place — the same picker answers `Get(2) = 6`. -/
theorem claim_C1_counterexample :
    pickerGet (mkPicker [⟨1, 2⟩, ⟨3, 4⟩, ⟨6, 6⟩]) 2 = some 3 ∧
    pickerGet (pickerAfterMerge [⟨1, 2⟩, ⟨3, 4⟩, ⟨6, 6⟩]) 2 = some 6 := by
  constructor
  · decide
  · have hm : mergeBacking [⟨1, 2⟩, ⟨3, 4⟩, ⟨6, 6⟩] =
        [⟨1, 4⟩, ⟨6, 6⟩, ⟨6, 6⟩] := by
      rw [mergeBacking_eq, mergeRuns_eq_mergeInto]
      decide
    show pickerGet { mkPicker [⟨1, 2⟩, ⟨3, 4⟩, ⟨6, 6⟩] with
      ranges := (mergeBacking [⟨1, 2⟩, ⟨3, 4⟩, ⟨6, 6⟩]).take 3 } 2 = some 6
    rw [hm]
    decide

/-- C1 (amended): a picker shares its `ranges` slice with the builder, so a
later `MergeAdjacents` leaves `size` and `cumSizes` (snapshots taken at
construction) unchanged but replaces the picker's view of the intervals by
the in-place-rewritten backing array — `Get` results can therefore change,
as the counterexample shows. -/
theorem claim_C1 (l : List Range) :
    (pickerAfterMerge l).size = (mkPicker l).size ∧
    (pickerAfterMerge l).cumSizes = (mkPicker l).cumSizes ∧
    (pickerAfterMerge l).ranges = mergeRuns l ++ l.drop (mergeRuns l).length := by
  refine ⟨rfl, rfl, ?_⟩
  show (mergeBacking l).take l.length = _
  rw [mergeBacking_eq]
  have hle := mergeRuns_length_le l
  have hlen : (mergeRuns l ++ l.drop (mergeRuns l).length).length = l.length := by
    simp only [List.length_append, List.length_drop]
    omega
  rw [← hlen, List.take_length]

end Runeset

namespace Runeset

/-- C7: a class escape is rejected by the single-character decoder and so
can never become a range endpoint; when the low endpoint decodes, a `-`
follows, and the character after the `-` fails to decode, the failure is
not propagated — `lo` is added as a singleton and parsing resumes at the
`-`; and concretely `Parse("\w-_")` succeeds with exactly the members of
`\w` plus the literals `-` and `_`. -/
theorem claim_C7 (cats scripts : TableEnv) :
    (∀ (c : Nat) (rest : List Nat),
      c = 100 ∨ c = 108 ∨ c = 76 ∨ c = 119 ∨ c = 115 ∨ c = 103 ∨ c = 112 →
      decodeChar (92 :: c :: rest) = .error (.invalid [92, c])) ∧
    (∀ (set : List Range) (b : Nat) (s' : List Nat) (lo : Int)
      (losize : Nat) (e : PErr),
      decodeCharClass cats scripts set (b :: s') = (set, 0, none) →
      decodeChar (b :: s') = .ok (lo, losize) →
      (b :: s').get? losize = some 45 →
      decodeChar ((b :: s').drop (losize + 1)) = .error e →
      parseLoop cats scripts set (b :: s') =
        parseLoop cats scripts (add set lo) ((b :: s').drop losize)) ∧
    parse cats scripts [92, 119, 45, 95] =
      ([⟨45, 45⟩, ⟨48, 57⟩, ⟨65, 90⟩, ⟨95, 95⟩, ⟨97, 122⟩], none) := by
  refine ⟨decodeChar_class_escape, parseLoop_fallback cats scripts, ?_⟩
  have h1 : parseLoop cats scripts [] [92, 119, 45, 95] =
      parseLoop cats scripts [⟨48, 57⟩, ⟨65, 90⟩, ⟨97, 122⟩] [45, 95] :=
    parseLoop_class_step cats scripts [] [⟨48, 57⟩, ⟨65, 90⟩, ⟨97, 122⟩]
      92 [119, 45, 95] 2 rfl (by decide)
  have h2 : parseLoop cats scripts [⟨48, 57⟩, ⟨65, 90⟩, ⟨97, 122⟩] [45, 95] =
      parseLoop cats scripts [⟨45, 45⟩, ⟨48, 57⟩, ⟨65, 90⟩, ⟨97, 122⟩] [95] :=
    parseLoop_add_step cats scripts [⟨48, 57⟩, ⟨65, 90⟩, ⟨97, 122⟩] 45 [95]
      45 1 rfl rfl (by decide)
  have h3 : parseLoop cats scripts
        [⟨45, 45⟩, ⟨48, 57⟩, ⟨65, 90⟩, ⟨97, 122⟩] [95] =
      parseLoop cats scripts
        [⟨45, 45⟩, ⟨48, 57⟩, ⟨65, 90⟩, ⟨95, 95⟩, ⟨97, 122⟩] [] :=
    parseLoop_add_step cats scripts [⟨45, 45⟩, ⟨48, 57⟩, ⟨65, 90⟩, ⟨97, 122⟩]
      95 [] 95 1 rfl rfl (by decide)
  have hloop : parseLoop cats scripts [] [92, 119, 45, 95] =
      ([⟨45, 45⟩, ⟨48, 57⟩, ⟨65, 90⟩, ⟨95, 95⟩, ⟨97, 122⟩], none) := by
    rw [h1, h2, h3, parseLoop_nil]
  rw [parse_of_loop_ok cats scripts _ _ hloop]
  rw [mergeAdjacents_eq, mergeRuns_eq_mergeInto]
  decide

/-- C8: the parser's faults are terminal and carry the offending span:
a decodable range with `lo > hi` aborts with the bad-character-range error
(concretely on `"z-a"`), a `\p{NAME}` whose name is in neither the category
nor the script tables aborts with the invalid-character-class-name error
(concretely on `"\p{INVALID}"`), input ending inside a `\x`/`\u`/`\U`
escape or at a bare `\` yields the truncated-escape error, and every
erroring `Parse` returns the empty set — never a partial result. -/
theorem claim_C8 (cats scripts : TableEnv)
    (hcats : cats [73, 78, 86, 65, 76, 73, 68] = none)
    (hscripts : scripts [73, 78, 86, 65, 76, 73, 68] = none) :
    (∀ (set : List Range) (b : Nat) (s' : List Nat) (lo hi : Int)
      (losize hisize : Nat),
      decodeCharClass cats scripts set (b :: s') = (set, 0, none) →
      decodeChar (b :: s') = .ok (lo, losize) →
      (b :: s').get? losize = some 45 →
      decodeChar ((b :: s').drop (losize + 1)) = .ok (hi, hisize) →
      lo > hi →
      parseLoop cats scripts set (b :: s') =
        ([], some (.badRange ((b :: s').take (losize + hisize + 1))))) ∧
    parse cats scripts [122, 45, 97] = ([], some (.badRange [122, 45, 97])) ∧
    parse cats scripts [92, 112, 123, 73, 78, 86, 65, 76, 73, 68, 125] =
      ([], some (.invalidClassName
        [92, 112, 123, 73, 78, 86, 65, 76, 73, 68, 125])) ∧
    (∀ t : List Nat, t.length < 2 →
      decodeChar (92 :: 120 :: t) = .error (.truncated (92 :: 120 :: t))) ∧
    (∀ t : List Nat, t.length < 4 →
      decodeChar (92 :: 117 :: t) = .error (.truncated (92 :: 117 :: t))) ∧
    (∀ t : List Nat, t.length < 8 →
      decodeChar (92 :: 85 :: t) = .error (.truncated (92 :: 85 :: t))) ∧
    decodeChar [92] = .error (.truncated [92]) ∧
    parse cats scripts [92] = ([], some (.truncated [92])) ∧
    parse cats scripts [92, 120, 52] =
      ([], some (.truncated [92, 120, 52])) ∧
    (∀ (s : List Nat) (res : List Range) (e : PErr),
      parse cats scripts s = (res, some e) → res = []) := by
  refine ⟨parseLoop_badRange cats scripts, ?_, ?_, ?_, ?_, ?_, rfl, ?_, ?_,
    parse_error_empty cats scripts⟩
  · exact parse_of_loop_err cats scripts _ _ _
      (parseLoop_badRange cats scripts [] 122 [45, 97] 122 97 1 1
        rfl rfl rfl rfl (by decide))
  · refine parse_of_loop_err cats scripts _ _ _
      (parseLoop_class_error cats scripts [] []
        92 [112, 123, 73, 78, 86, 65, 76, 73, 68, 125] 0 _ ?_)
    simp [decodeCharClass, hcats, hscripts]
  · intro t ht
    have hlen : (92 :: 120 :: t).length < 2 + 2 := by
      simp only [List.length_cons]
      omega
    simp [decodeChar, escValue, hexEscape, hlen]
    exact fun hc => absurd hc (by omega)
  · intro t ht
    have hlen : (92 :: 117 :: t).length < 4 + 2 := by
      simp only [List.length_cons]
      omega
    simp [decodeChar, escValue, hexEscape, hlen]
    exact fun hc => absurd hc (by omega)
  · intro t ht
    have hlen : (92 :: 85 :: t).length < 8 + 2 := by
      simp only [List.length_cons]
      omega
    simp [decodeChar, escValue, hexEscape, hlen]
    exact fun hc => absurd hc (by omega)
  · exact parse_of_loop_err cats scripts _ _ _
      (parseLoop_char_error cats scripts [] 92 [] _ rfl rfl)
  · exact parse_of_loop_err cats scripts _ _ _
      (parseLoop_char_error cats scripts [] 92 [120, 52] _ rfl rfl)

theorem claim_C8_witness :
    parse emptyEnv emptyEnv [122, 45, 97] =
      ([], some (.badRange [122, 45, 97])) ∧
    parse emptyEnv emptyEnv [92, 112, 123, 73, 78, 86, 65, 76, 73, 68, 125] =
      ([], some (.invalidClassName
        [92, 112, 123, 73, 78, 86, 65, 76, 73, 68, 125])) ∧
    parse emptyEnv emptyEnv [92] = ([], some (.truncated [92])) := by
  have h := claim_C8 emptyEnv emptyEnv rfl rfl
  exact ⟨h.2.1, h.2.2.1, h.2.2.2.2.2.2.2.1⟩

/-- C10: `Parse` is total with respect to text encoding: the empty string
parses to the empty set, every non-backslash byte decodes successfully via
the UTF-8 decoder, a unit that is not the encoding of a scalar value
decodes to the replacement character `U+FFFD` with width 1, input made
entirely of non-ASCII bytes always parses without error, and concretely the
ill-formed bytes `FF 2D 80` parse as the range `U+FFFD-U+FFFD`. -/
theorem claim_C10 (cats scripts : TableEnv) :
    parse cats scripts [] = ([], none) ∧
    (∀ (b0 : Nat) (rest : List Nat), b0 ≠ 92 →
      decodeChar (b0 :: rest) =
        .ok ((decodeRune (b0 :: rest)).1, (decodeRune (b0 :: rest)).2)) ∧
    (∀ (b0 : Nat) (rest : List Nat),
      (∀ r : Nat, IsScalar r → ∀ t, utf8Encode r ++ t ≠ b0 :: rest) →
      decodeRune (b0 :: rest) = (0xFFFD, 1)) ∧
    (∀ s : List Nat, (∀ b ∈ s, 0x80 ≤ b) →
      ∃ setF, parse cats scripts s = (setF, none)) ∧
    parse cats scripts [255, 45, 128] = ([⟨65533, 65533⟩], none) := by
  refine ⟨?_, decodeChar_not_backslash, fun b0 rest hnw => ?_,
    parse_highbytes cats scripts, ?_⟩
  · rw [parse_of_loop_ok cats scripts [] [] (parseLoop_nil cats scripts [])]
    rw [mergeAdjacents_eq, mergeRuns_eq_mergeInto]
  · rcases decodeRune_sound b0 rest with h | ⟨r, hs, ⟨t, ht⟩, _⟩
    · exact h
    · exact absurd ht (hnw r hs t)
  · have hstep : parseLoop cats scripts [] [255, 45, 128] =
        parseLoop cats scripts (addRangeF [] 65533 65533) [] :=
      parseLoop_range_step cats scripts [] 255 [45, 128] 65533 65533 1 1
        rfl rfl rfl rfl (by decide)
    rw [parse_of_loop_ok cats scripts _ _ (by rw [hstep, parseLoop_nil])]
    rw [mergeAdjacents_eq, mergeRuns_eq_mergeInto]
    decide

end Runeset
